import Mathlib

/-!
# Verification of the job-shop timeline/interval allocator (`src/schedule.hpp`)

Shallow embedding of the core of `src/schedule.hpp`:

* `Interval` embeds `js::interval` (fields `start`, `end` — renamed `stop`
  because `end` is a Lean keyword — and the occupant pointer `task`, modelled
  as the identity `(job index, operation index)` of the occupying operation,
  with `none` standing for `nullptr`).
* Timelines (`js::timeline`) are `List Interval`; `interval_at`,
  `timeline_length` (`timeline::length`), `insert_before`, `insert_after`
  and the comparison `timeline_lt` (`timeline::operator<`) embed the members.
* `schedule_task`, `place_tl` (the timeline part of `schedule::add_task`),
  `Sched.add_task`, `Sched.schedule_jobs`, `Sched.longest_timeline` and
  `Sched.summary` embed the `js::schedule` members.

Time values (`time32_t` in the source) are embedded as `Int`; the source
sentinel `interval::infinity = std::numeric_limits<time32_t>::max()` is the
concrete constant `infinity = 2147483647`.  Arithmetic is exact integer
arithmetic: the signed-overflow corner of the 32-bit type shows up only as
computations reaching the `infinity` sentinel, which the theorems below make
explicit.

The job/task containers come from `dataset.hpp`, which is not part of the
sources; their fields are modelled from the spec (§3 DATA MODEL) and from how
`schedule.hpp` uses them: a task carries `machine_id`, `duration` and a
mutable `scheduled_time` ("unset until scheduled", hence `Option Int`), a job
carries `id`, its `sequence` of tasks and the mutable cursor
`last_scheduled_time` (initialized to 0).
-/

namespace js

/-- `interval::infinity = std::numeric_limits<time32_t>::max()`. -/
def infinity : Int := 2147483647

/-- `js::interval`: a closed time range with an optional occupant.
`stop` embeds the source field `end` (a Lean keyword); `task` embeds the
occupant pointer, as the occupying operation's identity `(job, op index)`. -/
structure Interval where
  start : Int
  stop : Int
  task : Option (Nat × Nat)
deriving DecidableEq, Repr

/-- `interval::empty(start, end)`: a free interval. -/
def Interval.empty (s e : Int) : Interval := ⟨s, e, none⟩

/-- `interval::occupied()`: the occupant pointer is non-null. -/
def Interval.occupied (i : Interval) : Bool := i.task.isSome

/-- `interval::includes(time)`: `start <= time and time <= end`. -/
def Interval.includesT (i : Interval) (t : Int) : Bool :=
  decide (i.start ≤ t) && decide (t ≤ i.stop)

/-- `interval::includes(from, duration)`:
`std::max(start, from) + duration - 1 <= end`. -/
def Interval.includes (i : Interval) (lo dur : Int) : Bool :=
  decide (max i.start lo + dur - 1 ≤ i.stop)

/-- `timeline::interval_at(time)`: index of the first interval whose range
contains `time` (`std::find_if` from the front; the list's length when no
interval matches, i.e. the `end()` iterator). -/
def interval_at (tl : List Interval) (t : Int) : Nat :=
  tl.findIdx (fun iv => iv.includesT t)

/-- `timeline::length()`: `end + 1` of the last interval when it is occupied,
otherwise its `start`.  (`intervals.back()` on an empty timeline is undefined
in the source; the `0` default never arises on timelines built by the code.) -/
def timeline_length (tl : List Interval) : Int :=
  match tl.getLast? with
  | none => 0
  | some last => if last.occupied then last.stop + 1 else last.start

/-- `timeline::operator<`: comparison by `length()`. -/
def timeline_lt (a b : List Interval) : Bool :=
  decide (timeline_length a < timeline_length b)

/-- `timeline::insert_before(it, interval)`: `std::list::insert` before
position `idx`. -/
def insert_before (tl : List Interval) (idx : Nat) (iv : Interval) : List Interval :=
  tl.take idx ++ iv :: tl.drop idx

/-- `timeline::insert_after(it, interval)`: insert before `std::next(it)`. -/
def insert_after (tl : List Interval) (idx : Nat) (iv : Interval) : List Interval :=
  insert_before tl (idx + 1) iv

/-- The timeline mutation of `schedule::schedule_task` (lines 94–102): the
chosen interval at `idx` becomes the occupied block `[s, s + dur - 1]` bound
to `op`, a free interval covering the leftover front part is inserted before
it when `s > start`, and a free interval covering the leftover back part is
inserted after it when `s + dur - 1 < end`.  (The updates of
`task.scheduled_time` and `task.parent.last_scheduled_time` on lines 104–105
are performed by `Sched.add_task` below, which owns the job state.) -/
def schedule_task (tl : List Interval) (idx : Nat) (op : Nat × Nat)
    (dur s : Int) : List Interval :=
  match tl[idx]? with
  | none => tl
  | some iv =>
    let tl1 := tl.set idx ⟨s, s + dur - 1, some op⟩
    let tl2 := if iv.start < s then insert_before tl1 idx (Interval.empty iv.start (s - 1)) else tl1
    if s + dur - 1 < iv.stop then
      insert_after tl2 (if iv.start < s then idx + 1 else idx) (Interval.empty (s + dur) iv.stop)
    else tl2

/-- The scanning loop of `schedule::add_task` (line 112):
`while (time->occupied() or not time->includes(job_end, duration)) ++time;`
walked over the suffix of the timeline starting at absolute index `idx`.
Returns the absolute index of the chosen interval, or `none` when the
iterator would run past the end of the list (undefined behavior in the
source). -/
def scanAux : List Interval → Nat → Int → Int → Option Nat
  | [], _, _, _ => none
  | iv :: rest, idx, job_end, dur =>
    if iv.occupied || !iv.includes job_end dur then scanAux rest (idx + 1) job_end dur
    else some idx

/-- The scan of `schedule::add_task` started from position `idx`. -/
def scan (tl : List Interval) (idx : Nat) (job_end dur : Int) : Option Nat :=
  scanAux (tl.drop idx) idx job_end dur

/-- The timeline-level body of `schedule::add_task` (lines 110–113): start
the scan at `interval_at(job_end)`, advance to the first free interval that
fits, and occupy it from `std::max(time->start, job_end)`.  Returns the new
timeline together with the assigned start. -/
def place_tl (tl : List Interval) (job_end dur : Int) (op : Nat × Nat) :
    Option (List Interval × Int) :=
  match scan tl (interval_at tl job_end) job_end dur with
  | none => none
  | some idx =>
    match tl[idx]? with
    | none => none
    | some iv =>
      let s := max iv.start job_end
      some (schedule_task tl idx op dur s, s)

/-- `js::task` (modelled from the spec for the missing `dataset.hpp`):
machine identifier, positive duration, and the start time assigned by the
scheduler (`none` until scheduled).  The back-reference `parent` is the job
index used as first component of the occupant identity. -/
structure Task where
  machine_id : Nat
  duration : Int
  scheduled_time : Option Int
deriving DecidableEq, Repr

/-- `js::job` (modelled from the spec for the missing `dataset.hpp`): an
identifier, the fixed ordered sequence of tasks, and the mutable cursor
`last_scheduled_time`, initialized to 0. -/
structure Job where
  id : Nat
  sequence : List Task
  last_scheduled_time : Int
deriving DecidableEq, Repr

/-- `js::schedule`: one timeline per machine (`table`) plus the job data it
mutates (`data.jobs`). -/
structure Sched where
  table : List (List Interval)
  jobs : List Job
deriving DecidableEq, Repr

/-- The `schedule` constructor (lines 130–132): one timeline per machine,
each a single unbounded free interval. -/
def Sched.init (machine_count : Nat) (jobs : List Job) : Sched :=
  ⟨List.replicate machine_count [Interval.empty 0 infinity], jobs⟩

/-- `schedule::add_task(task)` for the `k`-th task of job `j` (lines
108–114), together with the task/job updates of `schedule_task` (lines
104–105): `scheduled_time = start` and
`parent.last_scheduled_time = start + duration`.  `none` models the
undefined behavior of an out-of-range job, task, or machine index, or of the
scan running past the end of the timeline. -/
def Sched.add_task (st : Sched) (j k : Nat) : Option Sched :=
  match st.jobs[j]? with
  | none => none
  | some job =>
    match job.sequence[k]? with
    | none => none
    | some task =>
      match st.table[task.machine_id]? with
      | none => none
      | some tl =>
        match place_tl tl job.last_scheduled_time task.duration (j, k) with
        | none => none
        | some (tl', s) =>
          some { table := st.table.set task.machine_id tl'
                 jobs := st.jobs.set j
                   { job with
                     sequence := job.sequence.set k { task with scheduled_time := some s }
                     last_scheduled_time := s + task.duration } }

/-- The heuristic type (`js::heuristic`): compare two jobs at a stage. -/
abbrev Heuristic := Job → Job → Nat → Bool

/-- Insertion into a sorted list by a strict comparator. -/
def insert_by (lt : α → α → Bool) (x : α) : List α → List α
  | [] => [x]
  | y :: ys => if lt x y then x :: y :: ys else y :: insert_by lt x ys

/-- Insertion sort by a strict comparator: a deterministic,
comparator-consistent model of `std::sort` (whose result order is only
specified up to the comparator). -/
def sort_by (lt : α → α → Bool) : List α → List α
  | [] => []
  | x :: xs => insert_by lt x (sort_by lt xs)

/-- The comparator of the stage loop, lifted to job indices: `jobs_order`
holds pointers `&data.jobs[0] + j`, compared by
`heuristic(a, b, i)` (line 140). -/
def heuristicAt (h : Heuristic) (st : Sched) (a b : Nat) (i : Nat) : Bool :=
  match st.jobs[a]?, st.jobs[b]? with
  | some ja, some jb => h ja jb i
  | _, _ => false

/-- One stage of `schedule::schedule_jobs` (lines 137–141): sort the job
indices by the heuristic at stage `i`, then place each job's `i`-th task in
that order. -/
def place_all : List Nat → Nat → Sched → Option Sched
  | [], _, st => some st
  | j :: rest, i, st =>
    match st.add_task j i with
    | none => none
    | some st' => place_all rest i st'

/-- One iteration of the stage loop of `schedule::schedule_jobs`. -/
def stage_once (h : Heuristic) (i : Nat) (st : Sched) : Option Sched :=
  place_all (sort_by (fun a b => heuristicAt h st a b i) (List.range st.jobs.length)) i st

/-- The stage loop of `schedule::schedule_jobs`: `n` remaining stages
starting at stage index `i`. -/
def stages (h : Heuristic) : Nat → Nat → Sched → Option Sched
  | 0, _, st => some st
  | n + 1, i, st =>
    match stage_once h i st with
    | none => none
    | some st' => stages h n (i + 1) st'

/-- `schedule::schedule_jobs(heuristic)` (lines 134–144): for each stage
`i < data.jobs[0].sequence.size()`, sort the jobs by the heuristic and place
each job's `i`-th task; finally sort `data.jobs` by ascending id (line 143).
`data.jobs[0]` on an empty job list is undefined in the source, modelled as
`none`. -/
def Sched.schedule_jobs (h : Heuristic) (st : Sched) : Option Sched :=
  match st.jobs with
  | [] => none
  | j0 :: _ =>
    match stages h j0.sequence.length 0 st with
    | none => none
    | some st' =>
      some { st' with jobs := sort_by (fun a b => decide (a.id < b.id)) st'.jobs }

/-- `std::max_element(table.begin(), table.end())` with `timeline::operator<`:
the first element no later element compares greater than. -/
def max_element (l : List (List Interval)) : Option (List Interval) :=
  match l with
  | [] => none
  | x :: xs => some (xs.foldl (fun acc y => if timeline_lt acc y then y else acc) x)

/-- `schedule::longest_timeline()` (lines 146–148): the length of the
maximal timeline.  (`max_element` of an empty table is undefined in the
source; the `0` default never arises with at least one machine.) -/
def Sched.longest_timeline (st : Sched) : Int :=
  match max_element st.table with
  | none => 0
  | some tl => timeline_length tl

/-- One job's line in `schedule::summary` (line 191): the scheduled start of
each task in sequence order, each followed by a space.  An unscheduled task's
start is unset in the source (its printed value is unspecified); `0` stands
for that unspecified value and never arises after a complete run. -/
def job_line (job : Job) : String :=
  job.sequence.foldl (fun acc t => acc ++ toString (t.scheduled_time.getD 0) ++ " ") ""

/-- `schedule::summary()` (lines 187–195): the makespan line followed by one
line per job. -/
def Sched.summary (st : Sched) : String :=
  st.jobs.foldl (fun acc job => acc ++ job_line job ++ "\n")
    (toString st.longest_timeline ++ "\n")

/-- The "longest operation at this stage first" heuristic of the related
driver (`stachu_algorithm`): compare by the stage task's duration,
descending. -/
def longest_first : Heuristic :=
  fun a b i =>
    match a.sequence[i]?, b.sequence[i]? with
    | some ta, some tb => decide (tb.duration < ta.duration)
    | _, _ => false

/-! ## Timeline invariants -/

/-- Contiguity of two adjacent intervals: `i.end + 1 == (i+1).start`. -/
def contig (a b : Interval) : Prop := a.stop + 1 = b.start

/-- The partition part of the timeline invariant: the interval list is
nonempty, starts at time 0, is contiguous, every interval is nonempty
(`start ≤ end`), and the last interval reaches the `infinity` sentinel. -/
structure TLWF (tl : List Interval) : Prop where
  ne : tl ≠ []
  head_start : ∀ iv ∈ tl.head?, iv.start = 0
  chain : List.Chain' contig tl
  wf : ∀ iv ∈ tl, iv.start ≤ iv.stop
  top : ∀ iv ∈ tl.getLast?, iv.stop = infinity

/-- The full timeline invariant: the partition invariant plus a free
unbounded final interval. -/
structure TLInv (tl : List Interval) extends TLWF tl : Prop where
  free_tail : ∀ iv ∈ tl.getLast?, iv.task = none

/-! ## The run as a transition system

A run of the scheduler (`schedule_jobs` with any heuristic) is a sequence of
`add_task` calls; each call places the next unscheduled task of some job (the
stage loop places tasks of each job in sequence order).  `Step` is one such
placement, `Reachable` the states a run can pass through. -/

/-- One placement performed during a run: job `j`'s task `k` is the first
unscheduled task of its job, and `add_task` succeeds on it. -/
def Step (st st' : Sched) : Prop :=
  ∃ (j k : Nat) (job : Job) (task : Task),
    st.jobs[j]? = some job ∧ job.sequence[k]? = some task ∧
    task.scheduled_time = none ∧
    (∀ k' < k, ∃ (t' : Task) (s' : Int),
      job.sequence[k']? = some t' ∧ t'.scheduled_time = some s') ∧
    st.add_task j k = some st'

/-- States reachable from the freshly constructed scheduler. -/
inductive Reachable (mc : Nat) (jobs0 : List Job) : Sched → Prop where
  | init : Reachable mc jobs0 (Sched.init mc jobs0)
  | step {st st' : Sched} : Reachable mc jobs0 st → Step st st' → Reachable mc jobs0 st'

/-- Well-formed input data: cursors start at 0, tasks are unscheduled, and
every duration is a positive integer (spec §3). -/
def InitialJobs (jobs : List Job) : Prop :=
  ∀ job ∈ jobs, job.last_scheduled_time = 0 ∧
    ∀ t ∈ job.sequence, 1 ≤ t.duration ∧ t.scheduled_time = none

/-- No two distinct placed operations on the same machine have intersecting
`[start, start + duration - 1]` ranges. -/
def no_overlap (st : Sched) : Prop :=
  ∀ (j k j' k' : Nat) (job job' : Job) (t t' : Task) (s s' : Int),
    st.jobs[j]? = some job → job.sequence[k]? = some t → t.scheduled_time = some s →
    st.jobs[j']? = some job' → job'.sequence[k']? = some t' → t'.scheduled_time = some s' →
    t.machine_id = t'.machine_id → (j, k) ≠ (j', k') →
    s + t.duration - 1 < s' ∨ s' + t'.duration - 1 < s

/-- The inductive invariant of the run, tying the timelines to the job
state. -/
structure SInv (st : Sched) : Prop where
  tw : ∀ (m : Nat) (tl : List Interval), st.table[m]? = some tl → TLWF tl
  dur_pos : ∀ job ∈ st.jobs, ∀ t ∈ job.sequence, 1 ≤ t.duration
  occ_sound : ∀ (m : Nat) (tl : List Interval), st.table[m]? = some tl →
    ∀ (iv : Interval), iv ∈ tl → ∀ (j k : Nat), iv.task = some (j, k) →
    ∃ (job : Job) (task : Task), st.jobs[j]? = some job ∧ job.sequence[k]? = some task ∧
      task.machine_id = m ∧ task.scheduled_time = some iv.start ∧
      iv.stop = iv.start + task.duration - 1
  sched_in_tl : ∀ (j : Nat) (job : Job), st.jobs[j]? = some job →
    ∀ (k : Nat) (task : Task), job.sequence[k]? = some task →
    ∀ (s : Int), task.scheduled_time = some s →
    ∃ tl, st.table[task.machine_id]? = some tl ∧
      (⟨s, s + task.duration - 1, some (j, k)⟩ : Interval) ∈ tl
  cursor_nonneg : ∀ job ∈ st.jobs, 0 ≤ job.last_scheduled_time
  cursor_ub : ∀ job ∈ st.jobs, ∀ (k : Nat) (task : Task) (s : Int), job.sequence[k]? = some task →
    task.scheduled_time = some s → s + task.duration ≤ job.last_scheduled_time
  start_nonneg : ∀ job ∈ st.jobs, ∀ t ∈ job.sequence, ∀ s, t.scheduled_time = some s → 0 ≤ s
  order : ∀ job ∈ st.jobs, ∀ (k : Nat) (t t' : Task) (s s' : Int), job.sequence[k]? = some t →
    job.sequence[k + 1]? = some t' → t.scheduled_time = some s →
    t'.scheduled_time = some s' → s + t.duration ≤ s'
  lower : ∀ job ∈ st.jobs, ∀ (k k' : Nat) (t t' : Task), k' ≤ k → job.sequence[k]? = some t →
    job.sequence[k']? = some t' → t.scheduled_time.isSome = true →
    t'.scheduled_time.isSome = true

/-- Job state during the stage loop: the first `i` operations are scheduled
and the rest are not (the stage loop places each job's `i`-th task during
stage `i`). -/
def PrefixAt (i : Nat) (job : Job) : Prop :=
  (∀ k < i, ∃ (t : Task) (s : Int), job.sequence[k]? = some t ∧ t.scheduled_time = some s) ∧
  (∀ (k : Nat) (t : Task), i ≤ k → job.sequence[k]? = some t → t.scheduled_time = none)

theorem TLInv_single : TLInv [Interval.empty 0 infinity] := by
  refine ⟨⟨?_, ?_, ?_, ?_, ?_⟩, ?_⟩ <;>
    simp [Interval.empty, List.head?, List.getLast?, contig, infinity]

theorem TLInv_init (mc : Nat) (jobs : List Job) :
    ∀ tl ∈ (Sched.init mc jobs).table, TLInv tl := by
  intro tl htl
  have : tl = [Interval.empty 0 infinity] := by
    simpa [Sched.init] using (List.mem_replicate.mp htl).2
  rw [this]; exact TLInv_single

/-! ## Consequences of the partition invariant -/

theorem chain_lt_of_mem_tail {a : Interval} {l : List Interval}
    (hc : List.Chain' contig (a :: l)) (hwf : ∀ iv ∈ a :: l, iv.start ≤ iv.stop) :
    ∀ b ∈ l, a.stop < b.start := by
  induction l generalizing a with
  | nil => simp
  | cons b l ih =>
    intro c hc'
    have hab : contig a b := (List.chain'_cons.mp hc).1
    unfold contig at hab
    rcases List.mem_cons.mp hc' with h | hcl
    · subst h; omega
    · have hb := ih (List.chain'_cons.mp hc).2
        (fun iv hiv => hwf iv (List.mem_cons_of_mem a hiv)) c hcl
      have hbwf : b.start ≤ b.stop := hwf b (by simp)
      omega

/-- Contiguity plus nonempty intervals gives strict separation (sortedness
and non-overlap in one statement). -/
theorem pairwise_of_TLWF {tl : List Interval} (h : TLWF tl) :
    List.Pairwise (fun a b : Interval => a.stop < b.start) tl := by
  have hc := h.chain
  have hwf := h.wf
  clear h
  induction tl with
  | nil => exact List.Pairwise.nil
  | cons a l ih =>
    refine List.pairwise_cons.mpr ⟨chain_lt_of_mem_tail hc hwf, ?_⟩
    exact ih (List.chain'_cons'.mp hc).2 (fun iv hiv => hwf iv (List.mem_cons_of_mem a hiv))

theorem covers_of_chain {tl : List Interval} (hc : List.Chain' contig tl)
    {t : Int} (hne : tl ≠ []) (hlo : ∀ iv ∈ tl.head?, iv.start ≤ t)
    (hhi : ∀ iv ∈ tl.getLast?, t ≤ iv.stop) :
    ∃ iv ∈ tl, iv.start ≤ t ∧ t ≤ iv.stop := by
  induction tl with
  | nil => exact absurd rfl hne
  | cons a l ih =>
    by_cases hta : t ≤ a.stop
    · exact ⟨a, by simp, by simpa using hlo, hta⟩
    · cases l with
      | nil => exact absurd (by simpa [List.getLast?] using hhi) hta
      | cons b l' =>
        have hab : contig a b := (List.chain'_cons.mp hc).1
        obtain ⟨iv, hiv, h1, h2⟩ := ih (List.chain'_cons.mp hc).2 (by simp)
          (by intro iv hiv; simp at hiv; subst hiv; unfold contig at hab; omega)
          (by intro iv hiv; exact hhi iv (by simpa [List.getLast?_cons] using hiv))
        exact ⟨iv, List.mem_cons_of_mem a hiv, h1, h2⟩

/-- Under the partition invariant the timeline covers `[0, infinity]`. -/
theorem covers_of_TLWF {tl : List Interval} (h : TLWF tl) {t : Int}
    (h0 : 0 ≤ t) (hi : t ≤ infinity) :
    ∃ iv ∈ tl, iv.start ≤ t ∧ t ≤ iv.stop := by
  refine covers_of_chain h.chain h.ne ?_ ?_
  · intro iv hiv; rw [h.head_start iv hiv]; exact h0
  · intro iv hiv; rw [h.top iv hiv]; exact hi

/-- `interval_at` finds a containing interval whenever one exists. -/
theorem interval_at_lt_length {tl : List Interval} {t : Int}
    (h : ∃ iv ∈ tl, iv.start ≤ t ∧ t ≤ iv.stop) :
    interval_at tl t < tl.length := by
  refine List.findIdx_lt_length_of_exists ?_
  obtain ⟨iv, hiv, h1, h2⟩ := h
  exact ⟨iv, hiv, by simp [Interval.includesT, h1, h2]⟩

/-! ## The scanning loop -/

theorem scanAux_some {l : List Interval} {idx : Nat} {je d : Int} {k : Nat}
    (h : scanAux l idx je d = some k) :
    ∃ j iv, k = idx + j ∧ l[j]? = some iv ∧ iv.occupied = false ∧ iv.includes je d = true ∧
      ∀ j' iv', j' < j → l[j']? = some iv' →
        iv'.occupied = true ∨ iv'.includes je d = false := by
  induction l generalizing idx with
  | nil => simp [scanAux] at h
  | cons a rest ih =>
    by_cases hc : (a.occupied || !a.includes je d) = true
    · rw [scanAux, if_pos hc] at h
      obtain ⟨j, iv, hk, hj, hocc, hinc, hbefore⟩ := ih h
      refine ⟨j + 1, iv, by omega, by simpa using hj, hocc, hinc, ?_⟩
      intro j' iv' hlt hj'
      match j', hj' with
      | 0, hj' =>
        obtain rfl : a = iv' := by simpa using hj'
        rcases Bool.or_eq_true_iff.mp hc with h1 | h1
        · exact Or.inl h1
        · exact Or.inr (by simpa using h1)
      | j'' + 1, hj' => exact hbefore j'' iv' (by omega) (by simpa using hj')
    · rw [scanAux, if_neg hc] at h
      have hk : k = idx := by simpa using h.symm
      obtain ⟨h1, h2⟩ : a.occupied = false ∧ a.includes je d = true := by simpa using hc
      exact ⟨0, a, by omega, by simp, h1, h2, by omega⟩

theorem scanAux_isSome {l : List Interval} {je d : Int} {j : Nat} {iv : Interval}
    (hj : l[j]? = some iv) (hocc : iv.occupied = false) (hinc : iv.includes je d = true) :
    ∀ idx, (scanAux l idx je d).isSome := by
  induction l generalizing j with
  | nil => simp at hj
  | cons a rest ih =>
    intro idx
    by_cases hc : (a.occupied || !a.includes je d) = true
    · rw [scanAux, if_pos hc]
      match j, hj with
      | 0, hj =>
        obtain rfl : a = iv := by simpa using hj
        rcases Bool.or_eq_true_iff.mp hc with h1 | h1
        · rw [hocc] at h1; exact absurd h1 (by simp)
        · rw [hinc] at h1; exact absurd h1 (by simp)
      | j'' + 1, hj => exact ih (by simpa using hj) (idx + 1)
    · rw [scanAux, if_neg hc]; rfl

theorem scan_some {tl : List Interval} {idx : Nat} {je d : Int} {k : Nat}
    (h : scan tl idx je d = some k) :
    idx ≤ k ∧ ∃ iv, tl[k]? = some iv ∧ iv.occupied = false ∧ iv.includes je d = true ∧
      ∀ i iv', idx ≤ i → i < k → tl[i]? = some iv' →
        iv'.occupied = true ∨ iv'.includes je d = false := by
  obtain ⟨j, iv, hk, hj, hocc, hinc, hbefore⟩ := scanAux_some h
  rw [List.getElem?_drop] at hj
  subst hk
  refine ⟨by omega, iv, hj, hocc, hinc, ?_⟩
  intro i iv' h1 h2 hi
  have hig : (List.drop idx tl)[i - idx]? = some iv' := by
    rw [List.getElem?_drop]
    have hii : idx + (i - idx) = i := by omega
    rw [hii]; exact hi
  exact hbefore (i - idx) iv' (by omega) hig

theorem scan_isSome {tl : List Interval} {idx : Nat} {je d : Int} {k : Nat} {iv : Interval}
    (hik : idx ≤ k) (hk : tl[k]? = some iv) (hocc : iv.occupied = false)
    (hinc : iv.includes je d = true) :
    (scan tl idx je d).isSome := by
  have : (tl.drop idx)[k - idx]? = some iv := by
    rw [List.getElem?_drop]
    have : idx + (k - idx) = k := by omega
    rw [this]; exact hk
  exact scanAux_isSome this hocc hinc idx

/-! ## The shape of `schedule_task` -/

theorem insert_before_append {l1 l2 : List Interval} {n : Nat} (h : l1.length = n)
    (iv : Interval) : insert_before (l1 ++ l2) n iv = l1 ++ iv :: l2 := by
  unfold insert_before
  rw [List.take_left' h, List.drop_left' h]

/-- The chosen interval at `idx` is replaced, in place, by the optional free
front piece, the occupied block, and the optional free back piece; the rest
of the timeline is untouched. -/
theorem schedule_task_eq {tl : List Interval} {idx : Nat} {op : Nat × Nat} {dur s : Int}
    {iv : Interval} (h : tl[idx]? = some iv) :
    schedule_task tl idx op dur s =
      tl.take idx ++
        ((if iv.start < s then [Interval.empty iv.start (s - 1)] else []) ++
          (⟨s, s + dur - 1, some op⟩ : Interval) ::
          (if s + dur - 1 < iv.stop then [Interval.empty (s + dur) iv.stop] else [])) ++
        tl.drop (idx + 1) := by
  have hlen : idx < tl.length := (List.getElem?_eq_some.mp h).1
  have htake : (tl.take idx).length = idx := by rw [List.length_take]; omega
  have hset : tl.set idx ⟨s, s + dur - 1, some op⟩ =
      tl.take idx ++ (⟨s, s + dur - 1, some op⟩ : Interval) :: tl.drop (idx + 1) := by
    rw [List.set_eq_take_append_cons_drop, if_pos hlen]
  unfold schedule_task
  rw [h]
  by_cases hb : iv.start < s <;> by_cases ha : s + dur - 1 < iv.stop <;>
    simp only [hb, ha, if_true, if_false, ite_true, ite_false, hset]
  · rw [insert_before_append htake]
    unfold insert_after
    have hsplit : tl.take idx ++ Interval.empty iv.start (s - 1) ::
        (⟨s, s + dur - 1, some op⟩ : Interval) :: tl.drop (idx + 1) =
        (tl.take idx ++ [Interval.empty iv.start (s - 1), ⟨s, s + dur - 1, some op⟩]) ++
          tl.drop (idx + 1) := by simp
    have hl2 : (tl.take idx ++
        [Interval.empty iv.start (s - 1), (⟨s, s + dur - 1, some op⟩ : Interval)]).length =
        idx + 1 + 1 := by simp [htake]
    rw [hsplit, insert_before_append hl2]
    simp
  · rw [insert_before_append htake]
    simp
  · unfold insert_after
    have hsplit : tl.take idx ++ (⟨s, s + dur - 1, some op⟩ : Interval) :: tl.drop (idx + 1) =
        (tl.take idx ++ [(⟨s, s + dur - 1, some op⟩ : Interval)]) ++ tl.drop (idx + 1) := by
      simp
    have hl2 : (tl.take idx ++ [(⟨s, s + dur - 1, some op⟩ : Interval)]).length = idx + 1 := by
      simp [htake]
    rw [hsplit, insert_before_append hl2]
    simp
  · simp

/-! ## Characterization of a successful placement -/

theorem place_tl_some {tl : List Interval} {je d : Int} {op : Nat × Nat}
    {tl' : List Interval} {s : Int} (h : place_tl tl je d op = some (tl', s)) :
    ∃ idx iv, tl[idx]? = some iv ∧ iv.occupied = false ∧ iv.includes je d = true ∧
      s = max iv.start je ∧ tl' = schedule_task tl idx op d s ∧
      interval_at tl je ≤ idx ∧
      ∀ i iv', interval_at tl je ≤ i → i < idx → tl[i]? = some iv' →
        iv'.occupied = true ∨ iv'.includes je d = false := by
  unfold place_tl at h
  split at h
  · exact absurd h (by simp)
  next idx hscan =>
    split at h
    · exact absurd h (by simp)
    next iv hidx =>
      simp only [Option.some.injEq, Prod.mk.injEq] at h
      obtain ⟨htl', hs⟩ := h
      obtain ⟨hik, iv2, hidx2, hocc, hinc, hbefore⟩ := scan_some hscan
      obtain rfl : iv = iv2 := by rw [hidx] at hidx2; exact Option.some.inj hidx2
      exact ⟨idx, iv, hidx, hocc, hinc, hs.symm, by rw [← htl', ← hs], hik, hbefore⟩

/-! ## Preservation of the invariants by placement -/

theorem TLWF_replace {pre post mid : List Interval} {iv : Interval}
    (hw : TLWF (pre ++ iv :: post)) (hne : mid ≠ [])
    (hchain : List.Chain' contig mid)
    (hwfm : ∀ x ∈ mid, x.start ≤ x.stop)
    (hhead : ∀ x ∈ mid.head?, x.start = iv.start)
    (hlast : ∀ x ∈ mid.getLast?, x.stop = iv.stop) :
    TLWF (pre ++ mid ++ post) := by
  obtain ⟨hne0, hhead0, hchain0, hwf0, htop0⟩ := hw
  obtain ⟨hcpre, hcivp, hlink1⟩ := List.chain'_append.mp hchain0
  have hcpost : List.Chain' contig post := (List.chain'_cons'.mp hcivp).2
  have hlink2 : ∀ y ∈ post.head?, contig iv y := (List.chain'_cons'.mp hcivp).1
  obtain ⟨m, ms, rfl⟩ := List.exists_cons_of_ne_nil hne
  have hm : m.start = iv.start := hhead m rfl
  refine ⟨?_, ?_, ?_, ?_, ?_⟩
  · intro hcontra
    rcases List.append_eq_nil.mp hcontra with ⟨h1, -⟩
    rcases List.append_eq_nil.mp h1 with ⟨-, h2⟩
    exact List.cons_ne_nil m ms h2
  · intro x hx
    cases pre with
    | nil =>
      simp only [List.nil_append] at hx ⊢
      obtain rfl : m = x := by simpa using hx
      rw [hm]
      exact hhead0 iv (by simp)
    | cons p pre' =>
      obtain rfl : p = x := by simpa using hx
      exact hhead0 _ (by simp)
  · refine List.chain'_append.mpr ⟨List.chain'_append.mpr ⟨hcpre, hchain, ?_⟩, hcpost, ?_⟩
    · intro x hx y hy
      have hxiv : contig x iv := hlink1 x hx iv (by simp)
      obtain rfl : m = y := by simpa using hy
      unfold contig at hxiv ⊢
      omega
    · intro x hx y hy
      rw [List.getLast?_append_of_ne_nil _ (List.cons_ne_nil m ms)] at hx
      have hxs : x.stop = iv.stop := hlast x hx
      have hivy : contig iv y := hlink2 y hy
      unfold contig at hivy ⊢
      omega
  · intro x hx
    simp only [List.append_assoc, List.mem_append] at hx
    rcases hx with hx | hx | hx
    · exact hwf0 x (by simp [hx])
    · exact hwfm x hx
    · exact hwf0 x (by simp [hx])
  · intro x hx
    cases post with
    | nil =>
      rw [List.append_nil, List.getLast?_append_of_ne_nil _ (List.cons_ne_nil m ms)] at hx
      rw [hlast x hx]
      exact htop0 iv (by simp)
    | cons q post' =>
      refine htop0 x ?_
      rw [List.getLast?_append_of_ne_nil _ (List.cons_ne_nil q post')] at hx
      rw [List.getLast?_append_of_ne_nil _ (List.cons_ne_nil iv (q :: post')),
        List.getLast?_cons_cons]
      exact hx

theorem TLInv_replace {pre post mid : List Interval} {iv : Interval}
    (hw : TLInv (pre ++ iv :: post)) (hne : mid ≠ [])
    (hchain : List.Chain' contig mid)
    (hwfm : ∀ x ∈ mid, x.start ≤ x.stop)
    (hhead : ∀ x ∈ mid.head?, x.start = iv.start)
    (hlast : ∀ x ∈ mid.getLast?, x.stop = iv.stop)
    (hfree : post = [] → ∀ x ∈ mid.getLast?, x.task = none) :
    TLInv (pre ++ mid ++ post) := by
  refine ⟨TLWF_replace hw.toTLWF hne hchain hwfm hhead hlast, ?_⟩
  intro x hx
  cases post with
  | nil =>
    rw [List.append_nil, List.getLast?_append_of_ne_nil _ hne] at hx
    exact hfree rfl x hx
  | cons q post' =>
    refine hw.free_tail x ?_
    rw [List.getLast?_append_of_ne_nil _ (List.cons_ne_nil q post')] at hx
    rw [List.getLast?_append_of_ne_nil _ (List.cons_ne_nil iv (q :: post')),
      List.getLast?_cons_cons]
    exact hx

theorem TLWF_schedule_task {tl : List Interval} {idx : Nat} {iv : Interval}
    {op : Nat × Nat} {d s : Int} (hw : TLWF tl) (hidx : tl[idx]? = some iv)
    (hs1 : iv.start ≤ s) (hs2 : s + d - 1 ≤ iv.stop) (hd : 1 ≤ d) :
    TLWF (schedule_task tl idx op d s) := by
  obtain ⟨hlt, hget⟩ := List.getElem?_eq_some.mp hidx
  have htl := (List.take_append_drop idx tl).symm
  rw [List.drop_eq_getElem_cons hlt, hget] at htl
  have hw' : TLWF (tl.take idx ++ iv :: tl.drop (idx + 1)) := htl ▸ hw
  rw [schedule_task_eq hidx]
  by_cases h1 : iv.start < s <;> by_cases h2 : s + d - 1 < iv.stop
  · rw [if_pos h1, if_pos h2]
    refine TLWF_replace hw' (by simp) ?_ ?_ ?_ ?_
    · simp [List.chain'_cons, contig, Interval.empty]
    · intro x hx
      simp [Interval.empty] at hx
      rcases hx with rfl | rfl | rfl <;> simp [Interval.empty] <;> omega
    · intro x hx
      obtain rfl : Interval.empty iv.start (s - 1) = x := by simpa using hx
      simp [Interval.empty]
    · intro x hx
      obtain rfl : Interval.empty (s + d) iv.stop = x := by simpa using hx
      simp [Interval.empty]
  · rw [if_pos h1, if_neg h2]
    refine TLWF_replace hw' (by simp) ?_ ?_ ?_ ?_
    · simp [List.chain'_cons, contig, Interval.empty]
    · intro x hx
      simp [Interval.empty] at hx
      rcases hx with rfl | rfl <;> simp [Interval.empty] <;> omega
    · intro x hx
      obtain rfl : Interval.empty iv.start (s - 1) = x := by simpa using hx
      simp [Interval.empty]
    · intro x hx
      obtain rfl : (⟨s, s + d - 1, some op⟩ : Interval) = x := by simpa using hx
      simp
      omega
  · rw [if_neg h1, if_pos h2]
    refine TLWF_replace hw' (by simp) ?_ ?_ ?_ ?_
    · simp [List.chain'_cons, contig, Interval.empty]
    · intro x hx
      simp [Interval.empty] at hx
      rcases hx with rfl | rfl <;> simp [Interval.empty] <;> omega
    · intro x hx
      obtain rfl : (⟨s, s + d - 1, some op⟩ : Interval) = x := by simpa using hx
      simp
      omega
    · intro x hx
      obtain rfl : Interval.empty (s + d) iv.stop = x := by simpa using hx
      simp [Interval.empty]
  · rw [if_neg h1, if_neg h2]
    refine TLWF_replace hw' (by simp) ?_ ?_ ?_ ?_
    · simp [List.chain'_cons, contig, Interval.empty]
    · intro x hx
      obtain rfl : x = (⟨s, s + d - 1, some op⟩ : Interval) := by simpa using hx
      simp
      omega
    · intro x hx
      obtain rfl : (⟨s, s + d - 1, some op⟩ : Interval) = x := by simpa using hx
      simp
      omega
    · intro x hx
      obtain rfl : (⟨s, s + d - 1, some op⟩ : Interval) = x := by simpa using hx
      simp
      omega

theorem TLInv_schedule_task {tl : List Interval} {idx : Nat} {iv : Interval}
    {op : Nat × Nat} {d s : Int} (hw : TLInv tl) (hidx : tl[idx]? = some iv)
    (hs1 : iv.start ≤ s) (hs2 : s + d - 1 ≤ iv.stop) (hd : 1 ≤ d)
    (hstrict : s + d ≤ infinity) :
    TLInv (schedule_task tl idx op d s) := by
  obtain ⟨hlt, hget⟩ := List.getElem?_eq_some.mp hidx
  have htl := (List.take_append_drop idx tl).symm
  rw [List.drop_eq_getElem_cons hlt, hget] at htl
  have hw' : TLInv (tl.take idx ++ iv :: tl.drop (idx + 1)) := htl ▸ hw
  have hivtop : tl.drop (idx + 1) = [] → iv.stop = infinity := by
    intro hp
    refine hw.top iv ?_
    rw [htl, hp]
    simp
  rw [schedule_task_eq hidx]
  by_cases h1 : iv.start < s <;> by_cases h2 : s + d - 1 < iv.stop
  · rw [if_pos h1, if_pos h2]
    refine TLInv_replace hw' (by simp) ?_ ?_ ?_ ?_ ?_
    · simp [List.chain'_cons, contig, Interval.empty]
    · intro x hx
      simp [Interval.empty] at hx
      rcases hx with rfl | rfl | rfl <;> simp [Interval.empty] <;> omega
    · intro x hx
      obtain rfl : Interval.empty iv.start (s - 1) = x := by simpa using hx
      simp [Interval.empty]
    · intro x hx
      obtain rfl : Interval.empty (s + d) iv.stop = x := by simpa using hx
      simp [Interval.empty]
    · intro hp x hx
      obtain rfl : Interval.empty (s + d) iv.stop = x := by simpa using hx
      simp [Interval.empty]
  · rw [if_pos h1, if_neg h2]
    refine TLInv_replace hw' (by simp) ?_ ?_ ?_ ?_ ?_
    · simp [List.chain'_cons, contig, Interval.empty]
    · intro x hx
      simp [Interval.empty] at hx
      rcases hx with rfl | rfl <;> simp [Interval.empty] <;> omega
    · intro x hx
      obtain rfl : Interval.empty iv.start (s - 1) = x := by simpa using hx
      simp [Interval.empty]
    · intro x hx
      obtain rfl : (⟨s, s + d - 1, some op⟩ : Interval) = x := by simpa using hx
      simp
      omega
    · intro hp x hx
      exact absurd (hivtop hp) (by omega)
  · rw [if_neg h1, if_pos h2]
    refine TLInv_replace hw' (by simp) ?_ ?_ ?_ ?_ ?_
    · simp [List.chain'_cons, contig, Interval.empty]
    · intro x hx
      simp [Interval.empty] at hx
      rcases hx with rfl | rfl <;> simp [Interval.empty] <;> omega
    · intro x hx
      obtain rfl : (⟨s, s + d - 1, some op⟩ : Interval) = x := by simpa using hx
      simp
      omega
    · intro x hx
      obtain rfl : Interval.empty (s + d) iv.stop = x := by simpa using hx
      simp [Interval.empty]
    · intro hp x hx
      obtain rfl : Interval.empty (s + d) iv.stop = x := by simpa using hx
      simp [Interval.empty]
  · rw [if_neg h1, if_neg h2]
    refine TLInv_replace hw' (by simp) ?_ ?_ ?_ ?_ ?_
    · simp [List.chain'_cons, contig, Interval.empty]
    · intro x hx
      obtain rfl : x = (⟨s, s + d - 1, some op⟩ : Interval) := by simpa using hx
      simp
      omega
    · intro x hx
      obtain rfl : (⟨s, s + d - 1, some op⟩ : Interval) = x := by simpa using hx
      simp
      omega
    · intro x hx
      obtain rfl : (⟨s, s + d - 1, some op⟩ : Interval) = x := by simpa using hx
      simp
      omega
    · intro hp x hx
      exact absurd (hivtop hp) (by omega)

/-! ## Membership in a mutated timeline -/

theorem mem_split_of_mem {tl : List Interval} {idx : Nat} {iv : Interval}
    (hidx : tl[idx]? = some iv) {x : Interval} (hx : x ∈ tl) :
    x ∈ tl.take idx ∨ x = iv ∨ x ∈ tl.drop (idx + 1) := by
  obtain ⟨hlt, hget⟩ := List.getElem?_eq_some.mp hidx
  have htl := (List.take_append_drop idx tl).symm
  rw [List.drop_eq_getElem_cons hlt, hget] at htl
  rw [htl] at hx
  simpa using hx

theorem mem_schedule_task_cases {tl : List Interval} {idx : Nat} {iv : Interval}
    {op : Nat × Nat} {d s : Int} (hidx : tl[idx]? = some iv) {x : Interval}
    (hx : x ∈ schedule_task tl idx op d s) :
    x ∈ tl.take idx ∨ x ∈ tl.drop (idx + 1) ∨
    x = Interval.empty iv.start (s - 1) ∨ x = (⟨s, s + d - 1, some op⟩ : Interval) ∨
    x = Interval.empty (s + d) iv.stop := by
  rw [schedule_task_eq hidx] at hx
  simp only [List.mem_append, List.mem_cons] at hx
  rcases hx with (hx | hx) | hx
  · exact Or.inl hx
  · rcases hx with hx | hx | hx
    · split at hx
      · simp at hx
        tauto
      · simp at hx
    · tauto
    · split at hx
      · simp at hx
        tauto
      · simp at hx
  · tauto

theorem occ_mem_schedule_task {tl : List Interval} {idx : Nat} {iv : Interval}
    {op : Nat × Nat} {d s : Int} (hidx : tl[idx]? = some iv) :
    (⟨s, s + d - 1, some op⟩ : Interval) ∈ schedule_task tl idx op d s := by
  rw [schedule_task_eq hidx]
  simp

theorem mem_schedule_task_of_old {tl : List Interval} {idx : Nat} {iv : Interval}
    {op : Nat × Nat} {d s : Int} (hidx : tl[idx]? = some iv) {x : Interval}
    (hx : x ∈ tl.take idx ∨ x ∈ tl.drop (idx + 1)) :
    x ∈ schedule_task tl idx op d s := by
  rw [schedule_task_eq hidx]
  simp only [List.mem_append, List.mem_cons]
  tauto

/-! ## The invariant holds initially and is preserved -/

theorem SInv_init (mc : Nat) (jobs0 : List Job) (h : InitialJobs jobs0) :
    SInv (Sched.init mc jobs0) := by
  have hnone : ∀ (jb : Job) (k : Nat) (t : Task), jb ∈ jobs0 → jb.sequence[k]? = some t →
      t.scheduled_time = none := by
    intro jb k t hjb hk
    exact ((h jb hjb).2 t (List.getElem?_mem hk)).2
  refine ⟨?_, ?_, ?_, ?_, ?_, ?_, ?_, ?_, ?_⟩
  · intro m tl htl
    simp only [Sched.init, List.getElem?_replicate] at htl
    split at htl
    · obtain rfl : [Interval.empty 0 infinity] = tl := Option.some.inj htl
      exact TLInv_single.toTLWF
    · exact absurd htl (by simp)
  · intro jb hjb t ht
    exact ((h jb hjb).2 t ht).1
  · intro m tl htl iv hiv j k htask
    simp only [Sched.init, List.getElem?_replicate] at htl
    split at htl
    · obtain rfl : [Interval.empty 0 infinity] = tl := Option.some.inj htl
      obtain rfl : iv = Interval.empty 0 infinity := by simpa using hiv
      simp [Interval.empty] at htask
    · exact absurd htl (by simp)
  · intro j jb hj k task hk s hsched
    have := hnone jb k task (List.getElem?_mem hj) hk
    rw [this] at hsched
    exact absurd hsched (by simp)
  · intro jb hjb
    rw [(h jb hjb).1]
  · intro jb hjb k task s hk hsched
    have := hnone jb k task hjb hk
    rw [this] at hsched
    exact absurd hsched (by simp)
  · intro jb hjb t ht s hsched
    rw [((h jb hjb).2 t ht).2] at hsched
    exact absurd hsched (by simp)
  · intro jb hjb k t t2 s s2 hk hk2 hsched hsched2
    have := hnone jb k t hjb hk
    rw [this] at hsched
    exact absurd hsched (by simp)
  · intro jb hjb k k2 t t2 hle hk hk2 hsome
    have := hnone jb k t hjb hk
    rw [this] at hsome
    exact absurd hsome (by simp)

theorem getElem?_set_eq_of_lt {α : Type} {l : List α} {i : Nat} {a : α}
    (h : i < l.length) :
    ∀ j2 : Nat, (l.set i a)[j2]? = if i = j2 then some a else l[j2]? := by
  intro j2
  rw [List.getElem?_set]
  by_cases hij : i = j2
  · subst hij
    simp [h]
  · simp [hij]

theorem SInv_step {st st' : Sched} (hinv : SInv st) (hstep : Step st st') : SInv st' := by
  obtain ⟨j, k, job, task, hj, hk, hunsched, hprev, hadd⟩ := hstep
  unfold Sched.add_task at hadd
  simp only [hj, hk] at hadd
  cases htl : st.table[task.machine_id]? with
  | none => simp [htl] at hadd
  | some tl =>
  simp only [htl] at hadd
  cases hplace : place_tl tl job.last_scheduled_time task.duration (j, k) with
  | none => simp [hplace] at hadd
  | some pr =>
  obtain ⟨tl', s⟩ := pr
  simp only [hplace] at hadd
  obtain rfl := Option.some.inj hadd
  obtain ⟨idx, iv, hidx, hocc, hinc, hs, htl'eq, hscan0, hbefore⟩ := place_tl_some hplace
  have hd : 1 ≤ task.duration :=
    hinv.dur_pos job (List.getElem?_mem hj) task (List.getElem?_mem hk)
  have hfits : max iv.start job.last_scheduled_time + task.duration - 1 ≤ iv.stop := by
    simpa [Interval.includes] using hinc
  have hs1 : iv.start ≤ s := by rw [hs]; exact le_max_left _ _
  have hsge : job.last_scheduled_time ≤ s := by rw [hs]; exact le_max_right _ _
  have hs2 : s + task.duration - 1 ≤ iv.stop := by rw [hs]; exact hfits
  have hivfree : iv.task = none := by simpa [Interval.occupied] using hocc
  have hjlen : j < st.jobs.length := (List.getElem?_eq_some.mp hj).1
  have hklen : k < job.sequence.length := (List.getElem?_eq_some.mp hk).1
  have hmlen : task.machine_id < st.table.length := (List.getElem?_eq_some.mp htl).1
  have h0 : 0 ≤ job.last_scheduled_time := hinv.cursor_nonneg job (List.getElem?_mem hj)
  have hjeq : ∀ {x : Job}, st.jobs[j]? = some x → job = x := by
    intro x hx
    rw [hj] at hx
    exact Option.some.inj hx
  have hkeq : ∀ {x : Task}, job.sequence[k]? = some x → task = x := by
    intro x hx
    rw [hk] at hx
    exact Option.some.inj hx
  refine ⟨?_, ?_, ?_, ?_, ?_, ?_, ?_, ?_, ?_⟩
  · -- tw
    intro m tl2 htl2
    have htl2x : (st.table.set task.machine_id tl')[m]? = some tl2 := htl2
    rw [getElem?_set_eq_of_lt hmlen] at htl2x
    by_cases hm : task.machine_id = m
    · rw [if_pos hm] at htl2x
      obtain rfl : tl' = tl2 := Option.some.inj htl2x
      rw [htl'eq]
      exact TLWF_schedule_task (hinv.tw task.machine_id tl htl) hidx hs1 hs2 hd
    · rw [if_neg hm] at htl2x
      exact hinv.tw m tl2 htl2x
  · -- dur_pos
    intro jb hjb t ht
    rcases List.mem_or_eq_of_mem_set hjb with hold | rfl
    · exact hinv.dur_pos jb hold t ht
    · have htx : t ∈ job.sequence.set k { task with scheduled_time := some s } := ht
      rcases List.mem_or_eq_of_mem_set htx with holdt | rfl
      · exact hinv.dur_pos job (List.getElem?_mem hj) t holdt
      · exact hd
  · -- occ_sound
    intro m tl2 htl2 iv2 hiv2 j2 k2 htask2
    have common : ∀ (m3 : Nat) (tl3 : List Interval), st.table[m3]? = some tl3 → iv2 ∈ tl3 →
        ∃ (jb3 : Job) (tk3 : Task),
          (st.jobs.set j { job with
              sequence := job.sequence.set k { task with scheduled_time := some s },
              last_scheduled_time := s + task.duration })[j2]? = some jb3 ∧
          jb3.sequence[k2]? = some tk3 ∧ tk3.machine_id = m3 ∧
          tk3.scheduled_time = some iv2.start ∧ iv2.stop = iv2.start + tk3.duration - 1 := by
      intro m3 tl3 htl3 hmem
      obtain ⟨jb2, tk2, hjb2, htk2, hmach, hsched2, hstop⟩ :=
        hinv.occ_sound m3 tl3 htl3 iv2 hmem j2 k2 htask2
      by_cases hj2 : j = j2
      · subst hj2
        obtain rfl : job = jb2 := hjeq hjb2
        by_cases hk2 : k = k2
        · subst hk2
          obtain rfl : task = tk2 := hkeq htk2
          rw [hunsched] at hsched2
          exact absurd hsched2 (by simp)
        · refine ⟨{ job with
              sequence := job.sequence.set k { task with scheduled_time := some s },
              last_scheduled_time := s + task.duration }, tk2, ?_, ?_, hmach, hsched2, hstop⟩
          · rw [getElem?_set_eq_of_lt hjlen, if_pos rfl]
          · show (job.sequence.set k _)[k2]? = _
            rw [getElem?_set_eq_of_lt hklen, if_neg hk2]
            exact htk2
      · refine ⟨jb2, tk2, ?_, htk2, hmach, hsched2, hstop⟩
        rw [getElem?_set_eq_of_lt hjlen, if_neg hj2]
        exact hjb2
    have htl2x : (st.table.set task.machine_id tl')[m]? = some tl2 := htl2
    rw [getElem?_set_eq_of_lt hmlen] at htl2x
    by_cases hm : task.machine_id = m
    · subst hm
      rw [if_pos rfl] at htl2x
      obtain rfl : tl' = tl2 := Option.some.inj htl2x
      rw [htl'eq] at hiv2
      rcases mem_schedule_task_cases hidx hiv2 with hold | hold | rfl | rfl | rfl
      · exact common task.machine_id tl htl (List.mem_of_mem_take hold)
      · exact common task.machine_id tl htl (List.mem_of_mem_drop hold)
      · simp [Interval.empty] at htask2
      · obtain ⟨rfl, rfl⟩ : j = j2 ∧ k = k2 := by simpa using htask2
        refine ⟨{ job with
              sequence := job.sequence.set k { task with scheduled_time := some s },
              last_scheduled_time := s + task.duration },
          { task with scheduled_time := some s }, ?_, ?_, rfl, rfl, ?_⟩
        · rw [getElem?_set_eq_of_lt hjlen, if_pos rfl]
        · show (job.sequence.set k _)[k]? = _
          rw [getElem?_set_eq_of_lt hklen, if_pos rfl]
        · rfl
      · simp [Interval.empty] at htask2
    · rw [if_neg hm] at htl2x
      exact common m tl2 htl2x hiv2
  · -- sched_in_tl
    intro j2 jb2 hjb2 k2 tk2 htk2 s2 hsched2
    have hjb2x : (st.jobs.set j { job with
        sequence := job.sequence.set k { task with scheduled_time := some s },
        last_scheduled_time := s + task.duration })[j2]? = some jb2 := hjb2
    rw [getElem?_set_eq_of_lt hjlen] at hjb2x
    by_cases hj2 : j = j2
    · subst hj2
      rw [if_pos rfl] at hjb2x
      obtain rfl := Option.some.inj hjb2x
      have htk2x : (job.sequence.set k { task with scheduled_time := some s })[k2]? =
          some tk2 := htk2
      rw [getElem?_set_eq_of_lt hklen] at htk2x
      by_cases hk2 : k = k2
      · subst hk2
        rw [if_pos rfl] at htk2x
        obtain rfl := Option.some.inj htk2x
        obtain rfl : s = s2 := Option.some.inj hsched2
        refine ⟨tl', ?_, ?_⟩
        · show (st.table.set task.machine_id tl')[task.machine_id]? = _
          rw [getElem?_set_eq_of_lt hmlen, if_pos rfl]
        · rw [htl'eq]
          exact occ_mem_schedule_task hidx
      · rw [if_neg hk2] at htk2x
        obtain ⟨tlm, htlm, hmem⟩ := hinv.sched_in_tl j job hj k2 tk2 htk2x s2 hsched2
        by_cases hm2 : task.machine_id = tk2.machine_id
        · obtain rfl : tl = tlm := by
            rw [← hm2] at htlm
            rw [htl] at htlm
            exact Option.some.inj htlm
          refine ⟨tl', ?_, ?_⟩
          · show (st.table.set task.machine_id tl')[tk2.machine_id]? = _
            rw [getElem?_set_eq_of_lt hmlen, if_pos hm2]
          · rw [htl'eq]
            refine mem_schedule_task_of_old hidx ?_
            rcases mem_split_of_mem hidx hmem with h | h | h
            · exact Or.inl h
            · have hcontra := congrArg Interval.task h
              rw [hivfree] at hcontra
              exact absurd hcontra (by simp)
            · exact Or.inr h
        · refine ⟨tlm, ?_, hmem⟩
          show (st.table.set task.machine_id tl')[tk2.machine_id]? = _
          rw [getElem?_set_eq_of_lt hmlen, if_neg hm2]
          exact htlm
    · rw [if_neg hj2] at hjb2x
      obtain ⟨tlm, htlm, hmem⟩ := hinv.sched_in_tl j2 jb2 hjb2x k2 tk2 htk2 s2 hsched2
      by_cases hm2 : task.machine_id = tk2.machine_id
      · obtain rfl : tl = tlm := by
          rw [← hm2] at htlm
          rw [htl] at htlm
          exact Option.some.inj htlm
        refine ⟨tl', ?_, ?_⟩
        · show (st.table.set task.machine_id tl')[tk2.machine_id]? = _
          rw [getElem?_set_eq_of_lt hmlen, if_pos hm2]
        · rw [htl'eq]
          refine mem_schedule_task_of_old hidx ?_
          rcases mem_split_of_mem hidx hmem with h | h | h
          · exact Or.inl h
          · have hcontra := congrArg Interval.task h
            rw [hivfree] at hcontra
            exact absurd hcontra (by simp)
          · exact Or.inr h
      · refine ⟨tlm, ?_, hmem⟩
        show (st.table.set task.machine_id tl')[tk2.machine_id]? = _
        rw [getElem?_set_eq_of_lt hmlen, if_neg hm2]
        exact htlm
  · -- cursor_nonneg
    intro jb hjb
    rcases List.mem_or_eq_of_mem_set hjb with hold | rfl
    · exact hinv.cursor_nonneg jb hold
    · show 0 ≤ s + task.duration
      omega
  · -- cursor_ub
    intro jb hjb k2 tk2 s2 htk2 hsched2
    rcases List.mem_or_eq_of_mem_set hjb with hold | rfl
    · exact hinv.cursor_ub jb hold k2 tk2 s2 htk2 hsched2
    · have htk2x : (job.sequence.set k { task with scheduled_time := some s })[k2]? =
          some tk2 := htk2
      rw [getElem?_set_eq_of_lt hklen] at htk2x
      show s2 + tk2.duration ≤ s + task.duration
      by_cases hk2 : k = k2
      · subst hk2
        rw [if_pos rfl] at htk2x
        obtain rfl := Option.some.inj htk2x
        obtain rfl : s = s2 := Option.some.inj hsched2
        exact le_rfl
      · rw [if_neg hk2] at htk2x
        have hub := hinv.cursor_ub job (List.getElem?_mem hj) k2 tk2 s2 htk2x hsched2
        omega
  · -- start_nonneg
    intro jb hjb t ht s2 hsched2
    rcases List.mem_or_eq_of_mem_set hjb with hold | rfl
    · exact hinv.start_nonneg jb hold t ht s2 hsched2
    · have htx : t ∈ job.sequence.set k { task with scheduled_time := some s } := ht
      rcases List.mem_or_eq_of_mem_set htx with holdt | rfl
      · exact hinv.start_nonneg job (List.getElem?_mem hj) t holdt s2 hsched2
      · obtain rfl : s = s2 := Option.some.inj hsched2
        omega
  · -- order
    intro jb hjb k2 t t2 s2 s2p hk2 hk2p hsched2 hsched2p
    rcases List.mem_or_eq_of_mem_set hjb with hold | rfl
    · exact hinv.order jb hold k2 t t2 s2 s2p hk2 hk2p hsched2 hsched2p
    · have hk2a : (job.sequence.set k { task with scheduled_time := some s })[k2]? =
          some t := hk2
      have hk2b : (job.sequence.set k { task with scheduled_time := some s })[k2 + 1]? =
          some t2 := hk2p
      rw [getElem?_set_eq_of_lt hklen] at hk2a hk2b
      by_cases hA : k = k2
      · rw [if_neg (by omega)] at hk2b
        have hcontr := hinv.lower job (List.getElem?_mem hj) (k2 + 1) k2 t2 task
          (by omega) hk2b (by rw [← hA]; exact hk) (by simp [hsched2p])
        rw [hunsched] at hcontr
        exact absurd hcontr (by simp)
      · rw [if_neg hA] at hk2a
        by_cases hB : k = k2 + 1
        · subst hB
          rw [if_pos rfl] at hk2b
          obtain rfl := Option.some.inj hk2b
          obtain rfl : s = s2p := Option.some.inj hsched2p
          have hub := hinv.cursor_ub job (List.getElem?_mem hj) k2 t s2 hk2a hsched2
          omega
        · rw [if_neg hB] at hk2b
          exact hinv.order job (List.getElem?_mem hj) k2 t t2 s2 s2p hk2a hk2b hsched2 hsched2p
  · -- lower
    intro jb hjb k2 k2p t t2 hle hk2 hk2p hsome
    rcases List.mem_or_eq_of_mem_set hjb with hold | rfl
    · exact hinv.lower jb hold k2 k2p t t2 hle hk2 hk2p hsome
    · have hk2a : (job.sequence.set k { task with scheduled_time := some s })[k2]? =
          some t := hk2
      have hk2b : (job.sequence.set k { task with scheduled_time := some s })[k2p]? =
          some t2 := hk2p
      rw [getElem?_set_eq_of_lt hklen] at hk2a hk2b
      by_cases hB : k = k2p
      · subst hB
        rw [if_pos rfl] at hk2b
        obtain rfl := Option.some.inj hk2b
        simp
      · rw [if_neg hB] at hk2b
        by_cases hA : k = k2
        · obtain ⟨t3, s3, ht3, hs3⟩ := hprev k2p (by omega)
          obtain rfl : t3 = t2 := by
            rw [ht3] at hk2b
            exact Option.some.inj hk2b
          rw [hs3]
          simp
        · rw [if_neg hA] at hk2a
          exact hinv.lower job (List.getElem?_mem hj) k2 k2p t t2 hle hk2a hk2b hsome

theorem SInv_reachable {mc : Nat} {jobs0 : List Job} {st : Sched}
    (h0 : InitialJobs jobs0) (hr : Reachable mc jobs0 st) : SInv st := by
  induction hr with
  | init => exact SInv_init mc jobs0 h0
  | step hr hstep ih => exact SInv_step ih hstep

theorem SInv_no_overlap {st : Sched} (hinv : SInv st) : no_overlap st := by
  intro j k j' k' job job' t t' s s' hj hk hs hj' hk' hs' hm hne
  obtain ⟨tl, htl, hmem⟩ := hinv.sched_in_tl j job hj k t hk s hs
  obtain ⟨tl2, htl2, hmem2⟩ := hinv.sched_in_tl j' job' hj' k' t' hk' s' hs'
  rw [← hm] at htl2
  obtain rfl : tl = tl2 := by
    rw [htl] at htl2
    exact Option.some.inj htl2
  have hpw := pairwise_of_TLWF (hinv.tw t.machine_id tl htl)
  have hpw2 : List.Pairwise (fun a b : Interval => a.stop < b.start ∨ b.stop < a.start) tl :=
    hpw.imp Or.inl
  have hsymm : Symmetric (fun a b : Interval => a.stop < b.start ∨ b.stop < a.start) := by
    intro a b hab
    tauto
  have hneq : (⟨s, s + t.duration - 1, some (j, k)⟩ : Interval) ≠
      ⟨s', s' + t'.duration - 1, some (j', k')⟩ := by
    intro hcontra
    apply hne
    have := congrArg Interval.task hcontra
    simpa using this
  have hdisj := hpw2.forall hsymm hmem hmem2 hneq
  rcases hdisj with h | h
  · exact Or.inl (by simpa using h)
  · exact Or.inr (by simpa using h)

theorem perm_insert_by {α : Type} (lt : α → α → Bool) (x : α) :
    ∀ l : List α, (insert_by lt x l).Perm (x :: l) := by
  intro l
  induction l with
  | nil => simp [insert_by]
  | cons z zs ih =>
    rw [insert_by]
    by_cases hc : lt x z = true
    · rw [if_pos hc]
    · rw [if_neg hc]
      exact (List.Perm.cons z ih).trans (List.Perm.swap x z zs)

theorem perm_sort_by {α : Type} (lt : α → α → Bool) :
    ∀ l : List α, (sort_by lt l).Perm l := by
  intro l
  induction l with
  | nil => simp [sort_by]
  | cons x xs ih =>
    rw [sort_by]
    exact (perm_insert_by lt x (sort_by lt xs)).trans (List.Perm.cons x ih)

theorem place_all_reach {mc : Nat} {jobs0 : List Job} :
    ∀ (idxs : List Nat) (i : Nat) (st st' : Sched),
      Reachable mc jobs0 st →
      idxs.Nodup →
      (∀ j ∈ idxs, ∀ job : Job, st.jobs[j]? = some job → PrefixAt i job) →
      place_all idxs i st = some st' →
      Reachable mc jobs0 st' ∧
      st'.jobs.length = st.jobs.length ∧
      (∀ j : Nat, j ∉ idxs → st'.jobs[j]? = st.jobs[j]?) ∧
      (∀ j ∈ idxs, ∀ job : Job, st'.jobs[j]? = some job → PrefixAt (i + 1) job) := by
  intro idxs
  induction idxs with
  | nil =>
    intro i st st' hre hnd hpre h
    obtain rfl : st = st' := Option.some.inj h
    exact ⟨hre, rfl, fun j hj => rfl, by simp⟩
  | cons j rest ih =>
    intro i st st' hre hnd hpre h
    rw [place_all] at h
    cases hadd : st.add_task j i with
    | none => rw [hadd] at h; exact absurd h (by simp)
    | some st1 =>
    rw [hadd] at h
    cases hj : st.jobs[j]? with
    | none => unfold Sched.add_task at hadd; simp [hj] at hadd
    | some job =>
    cases hk : job.sequence[i]? with
    | none => unfold Sched.add_task at hadd; simp [hj, hk] at hadd
    | some task =>
    cases htbl : st.table[task.machine_id]? with
    | none => unfold Sched.add_task at hadd; simp [hj, hk, htbl] at hadd
    | some tl =>
    cases hplace : place_tl tl job.last_scheduled_time task.duration (j, i) with
    | none => unfold Sched.add_task at hadd; simp [hj, hk, htbl, hplace] at hadd
    | some pr =>
    obtain ⟨tl', s⟩ := pr
    unfold Sched.add_task at hadd
    simp only [hj, hk, htbl, hplace] at hadd
    obtain rfl := Option.some.inj hadd
    have hjlen : j < st.jobs.length := (List.getElem?_eq_some.mp hj).1
    have hklen : i < job.sequence.length := (List.getElem?_eq_some.mp hk).1
    have hpj : PrefixAt i job := hpre j (by simp) job hj
    have hstep : Step st { table := st.table.set task.machine_id tl'
                           jobs := st.jobs.set j
                             { job with
                               sequence := job.sequence.set i
                                 { task with scheduled_time := some s }
                               last_scheduled_time := s + task.duration } } := by
      refine ⟨j, i, job, task, hj, hk, hpj.2 i task le_rfl hk, hpj.1, ?_⟩
      unfold Sched.add_task
      simp only [hj, hk, htbl, hplace]
    have hre1 := Reachable.step hre hstep
    have hjnotr : j ∉ rest := (List.nodup_cons.mp hnd).1
    have hlookup1 : ∀ j2 : Nat, j ≠ j2 →
        (st.jobs.set j { job with
          sequence := job.sequence.set i { task with scheduled_time := some s }
          last_scheduled_time := s + task.duration })[j2]? = st.jobs[j2]? := by
      intro j2 hne
      rw [getElem?_set_eq_of_lt hjlen, if_neg hne]
    have hpre1 : ∀ j2 ∈ rest, ∀ job2 : Job,
        (st.jobs.set j { job with
          sequence := job.sequence.set i { task with scheduled_time := some s }
          last_scheduled_time := s + task.duration })[j2]? = some job2 →
        PrefixAt i job2 := by
      intro j2 hj2 job2 hlk
      rw [hlookup1 j2 (by rintro rfl; exact hjnotr hj2)] at hlk
      exact hpre j2 (by simp [hj2]) job2 hlk
    obtain ⟨hre', hlen', hunch, hproc⟩ := ih i _ st' hre1 (List.nodup_cons.mp hnd).2 hpre1 h
    refine ⟨hre', ?_, ?_, ?_⟩
    · rw [hlen']
      simp
    · intro j2 hj2
      rw [hunch j2 (fun hm => hj2 (by simp [hm]))]
      exact hlookup1 j2 (by rintro rfl; exact hj2 (by simp))
    · intro j2 hj2 job2 hlk
      rcases List.mem_cons.mp hj2 with rfl | hj2r
      · rw [hunch j2 hjnotr] at hlk
        rw [getElem?_set_eq_of_lt hjlen, if_pos rfl] at hlk
        obtain rfl := Option.some.inj hlk
        constructor
        · intro k hki
          by_cases hik : i = k
          · subst hik
            refine ⟨{ task with scheduled_time := some s }, s, ?_, rfl⟩
            show (job.sequence.set i { task with scheduled_time := some s })[i]? = _
            rw [getElem?_set_eq_of_lt hklen, if_pos rfl]
          · obtain ⟨t0, s0, ht0, hs0⟩ := hpj.1 k (by omega)
            refine ⟨t0, s0, ?_, hs0⟩
            show (job.sequence.set i { task with scheduled_time := some s })[k]? = _
            rw [getElem?_set_eq_of_lt hklen, if_neg hik]
            exact ht0
        · intro k t0 hk1 hlk2
          have hlk3 : (job.sequence.set i { task with scheduled_time := some s })[k]? =
              some t0 := hlk2
          rw [getElem?_set_eq_of_lt hklen, if_neg (by omega)] at hlk3
          exact hpj.2 k t0 (by omega) hlk3
      · exact hproc j2 hj2r job2 hlk

theorem stage_once_reach {mc : Nat} {jobs0 : List Job} (hh : Heuristic) (i : Nat)
    (st st' : Sched) (hre : Reachable mc jobs0 st)
    (hpre : ∀ job ∈ st.jobs, PrefixAt i job)
    (h : stage_once hh i st = some st') :
    Reachable mc jobs0 st' ∧ st'.jobs.length = st.jobs.length ∧
    (∀ job ∈ st'.jobs, PrefixAt (i + 1) job) := by
  unfold stage_once at h
  have hperm : (sort_by (fun a b => heuristicAt hh st a b i)
      (List.range st.jobs.length)).Perm (List.range st.jobs.length) :=
    perm_sort_by _ _
  have hnd : (sort_by (fun a b => heuristicAt hh st a b i)
      (List.range st.jobs.length)).Nodup :=
    (hperm.nodup_iff).mpr (List.nodup_range _)
  have hmemidx : ∀ j : Nat, j ∈ sort_by (fun a b => heuristicAt hh st a b i)
      (List.range st.jobs.length) ↔ j < st.jobs.length := by
    intro j
    rw [hperm.mem_iff, List.mem_range]
  have hpre' : ∀ j ∈ sort_by (fun a b => heuristicAt hh st a b i)
      (List.range st.jobs.length), ∀ job : Job, st.jobs[j]? = some job → PrefixAt i job := by
    intro j hj job hlk
    exact hpre job (List.getElem?_mem hlk)
  obtain ⟨hre', hlen, hunch, hproc⟩ := place_all_reach _ i st st' hre hnd hpre' h
  refine ⟨hre', hlen, ?_⟩
  intro job hmem
  obtain ⟨j, hjl, hjget⟩ := List.getElem_of_mem hmem
  have hlk : st'.jobs[j]? = some job := by
    rw [List.getElem?_eq_getElem hjl, hjget]
  refine hproc j ((hmemidx j).mpr ?_) job hlk
  rw [← hlen]
  exact hjl

theorem stages_reach {mc : Nat} {jobs0 : List Job} (hh : Heuristic) :
    ∀ (n i : Nat) (st st' : Sched),
      Reachable mc jobs0 st →
      (∀ job ∈ st.jobs, PrefixAt i job) →
      stages hh n i st = some st' →
      Reachable mc jobs0 st' := by
  intro n
  induction n with
  | zero =>
    intro i st st' hre hpre h
    obtain rfl : st = st' := Option.some.inj h
    exact hre
  | succ n ih =>
    intro i st st' hre hpre h
    rw [stages] at h
    cases hso : stage_once hh i st with
    | none => rw [hso] at h; exact absurd h (by simp)
    | some st1 =>
      rw [hso] at h
      obtain ⟨hre1, -, hpre1⟩ := stage_once_reach hh i st st1 hre hpre hso
      exact ih (i + 1) st1 st' hre1 hpre1 h

theorem init_reaches_stages {mc : Nat} {jobs0 : List Job} {st : Sched}
    (h0 : InitialJobs jobs0)
    (h : Reachable mc jobs0 st ∨ ∃ (hh : Heuristic) (n : Nat),
      stages hh n 0 (Sched.init mc jobs0) = some st) :
    Reachable mc jobs0 st := by
  rcases h with h | ⟨hh, n, hst⟩
  · exact h
  · have hpre0 : ∀ job ∈ (Sched.init mc jobs0).jobs, PrefixAt 0 job := by
      intro job hmem
      refine ⟨fun k hk => absurd hk (by omega), ?_⟩
      intro k t hk hlk
      exact ((h0 job hmem).2 t (List.getElem?_mem hlk)).2
    exact stages_reach hh n 0 _ st Reachable.init hpre0 hst

/-- C2: during any run, after every placement, the assigned
`[start, start + duration - 1]` ranges of distinct operations on the same
machine do not intersect.  `Reachable` covers the scheduler state after each
individual `add_task` placement of a run, not only the final state; every
state the stage loop of `schedule_jobs` produces from a well-formed instance
is such a state (the second disjunct of the hypothesis). -/
theorem no_overlap_of_reachable :
    ∀ (mc : Nat) (jobs0 : List Job) (st : Sched),
      InitialJobs jobs0 →
      (Reachable mc jobs0 st ∨ ∃ (hh : Heuristic) (n : Nat),
        stages hh n 0 (Sched.init mc jobs0) = some st) →
      no_overlap st := by
  intro mc jobs0 st h0 hr
  exact SInv_no_overlap (SInv_reachable h0 (init_reaches_stages h0 hr))

theorem no_overlap_of_reachable_witness :
    InitialJobs [⟨0, [⟨0, 2, none⟩], 0⟩] ∧
      no_overlap (Sched.init 1 [⟨0, [⟨0, 2, none⟩], 0⟩]) :=
  ⟨by unfold InitialJobs; decide,
    no_overlap_of_reachable 1 [⟨0, [⟨0, 2, none⟩], 0⟩] _
      (by unfold InitialJobs; decide) (Or.inl Reachable.init)⟩

/-- C3: during any run, consecutive operations of the same job satisfy
`start' ≥ start + duration` (the job cursor, initialized to 0 and set to
`start + duration` on each placement, is the lower bound of the next
placement), and every assigned start time is nonnegative. -/
theorem order_preservation_and_nonneg :
    ∀ (mc : Nat) (jobs0 : List Job) (st : Sched),
      InitialJobs jobs0 →
      (Reachable mc jobs0 st ∨ ∃ (hh : Heuristic) (n : Nat),
        stages hh n 0 (Sched.init mc jobs0) = some st) →
      (∀ job ∈ st.jobs, ∀ (k : Nat) (t t' : Task) (s s' : Int),
        job.sequence[k]? = some t → job.sequence[k + 1]? = some t' →
        t.scheduled_time = some s → t'.scheduled_time = some s' →
        s + t.duration ≤ s') ∧
      (∀ job ∈ st.jobs, ∀ t ∈ job.sequence, ∀ s : Int,
        t.scheduled_time = some s → 0 ≤ s) := by
  intro mc jobs0 st h0 hr
  have hinv := SInv_reachable h0 (init_reaches_stages h0 hr)
  exact ⟨hinv.order, hinv.start_nonneg⟩

theorem order_preservation_and_nonneg_witness :
    InitialJobs [⟨0, [⟨0, 1, none⟩, ⟨0, 2, none⟩], 0⟩] ∧
      (∀ job ∈ (Sched.init 1 [⟨0, [⟨0, 1, none⟩, ⟨0, 2, none⟩], 0⟩]).jobs,
        ∀ t ∈ job.sequence, ∀ s : Int, t.scheduled_time = some s → 0 ≤ s) :=
  ⟨by unfold InitialJobs; decide,
    (order_preservation_and_nonneg 1 [⟨0, [⟨0, 1, none⟩, ⟨0, 2, none⟩], 0⟩] _
      (by unfold InitialJobs; decide) (Or.inl Reachable.init)).2⟩

theorem TLInv_pair {a b : Interval} (h1 : a.start = 0) (h2 : contig a b)
    (h3 : a.start ≤ a.stop) (h4 : b.start ≤ b.stop) (h5 : b.stop = infinity)
    (h6 : b.task = none) : TLInv [a, b] := by
  refine ⟨⟨by simp, ?_, ?_, ?_, ?_⟩, ?_⟩
  · intro iv hiv
    obtain rfl : a = iv := by simpa using hiv
    exact h1
  · simp [List.chain'_cons, h2]
  · intro iv hiv
    rcases (by simpa using hiv : iv = a ∨ iv = b) with rfl | rfl
    · exact h3
    · exact h4
  · intro iv hiv
    obtain rfl : b = iv := by simpa [List.getLast?] using hiv
    exact h5
  · intro iv hiv
    obtain rfl : b = iv := by simpa [List.getLast?] using hiv
    exact h6

/-- C1 (amended): for every machine, the timeline invariant — intervals
sorted, contiguous, non-overlapping, their union covering `[0, infinity]`,
the last interval free and unbounded — holds at `schedule` construction and
is preserved by every placement of an operation of positive duration whose
assigned block ends strictly below the `infinity` sentinel
(`start + duration ≤ infinity`, the no-overflow precondition of spec §7). -/
theorem timeline_partition_invariant :
    (∀ (mc : Nat) (jobs : List Job), ∀ tl ∈ (Sched.init mc jobs).table, TLInv tl) ∧
    (∀ (tl : List Interval) (je d : Int) (op : Nat × Nat) (tl' : List Interval) (s : Int),
      TLInv tl → 1 ≤ d → place_tl tl je d op = some (tl', s) → s + d ≤ infinity →
      TLInv tl') ∧
    (∀ tl : List Interval, TLInv tl →
      List.Pairwise (fun a b : Interval => a.stop < b.start) tl ∧
      (∀ t : Int, 0 ≤ t → t ≤ infinity → ∃ iv ∈ tl, iv.start ≤ t ∧ t ≤ iv.stop) ∧
      ∀ iv ∈ tl.getLast?, iv.task = none ∧ iv.stop = infinity) := by
  refine ⟨TLInv_init, ?_, ?_⟩
  · intro tl je d op tl' s hinv hd hplace hstrict
    obtain ⟨idx, iv, hidx, hocc, hinc, hs, htl'eq, -, -⟩ := place_tl_some hplace
    have hfits : max iv.start je + d - 1 ≤ iv.stop := by
      simpa [Interval.includes] using hinc
    rw [htl'eq]
    exact TLInv_schedule_task hinv hidx (by rw [hs]; exact le_max_left _ _)
      (by rw [hs]; exact hfits) hd hstrict
  · intro tl hinv
    exact ⟨pairwise_of_TLWF hinv.toTLWF,
      fun t h0 hi => covers_of_TLWF hinv.toTLWF h0 hi,
      fun iv hiv => ⟨hinv.free_tail iv hiv, hinv.top iv hiv⟩⟩

theorem timeline_partition_invariant_witness :
    TLInv [(⟨0, 2, some (0, 0)⟩ : Interval), ⟨3, infinity, none⟩] :=
  timeline_partition_invariant.2.1 [Interval.empty 0 infinity] 0 3 (0, 0)
    [(⟨0, 2, some (0, 0)⟩ : Interval), ⟨3, infinity, none⟩] 0
    TLInv_single (by decide) (by decide) (by decide)

/-- C1 counterexample: starting from a timeline satisfying the invariant,
placing an operation of positive duration `2147483646` at cursor `2`
succeeds and makes the last interval the occupied block `[2, infinity]`:
with only "duration is a positive integer" assumed, the preserved-invariant
claim is false (the free unbounded tail is destroyed when the block reaches
the `infinity` sentinel, the 32-bit overflow corner). -/
theorem timeline_partition_invariant_counterexample :
    TLInv [(⟨0, 1, some (0, 0)⟩ : Interval), ⟨2, infinity, none⟩] ∧
    (1 : Int) ≤ 2147483646 ∧
    place_tl [(⟨0, 1, some (0, 0)⟩ : Interval), ⟨2, infinity, none⟩] 2 2147483646 (0, 1) =
      some ([(⟨0, 1, some (0, 0)⟩ : Interval), ⟨2, infinity, some (0, 1)⟩], 2) ∧
    ¬ TLInv [(⟨0, 1, some (0, 0)⟩ : Interval), ⟨2, infinity, some (0, 1)⟩] := by
  refine ⟨TLInv_pair rfl (by unfold contig; decide) (by decide) (by decide) rfl rfl,
    by decide, by decide, ?_⟩
  intro h
  have := h.free_tail ⟨2, infinity, some (0, 1)⟩ (by simp [List.getLast?])
  simp at this

/-- C4: a successful placement is first-fit: the chosen interval is the
first one, scanning forward from `interval_at(cursor)`, that is neither
occupied nor fails `includes(earliest, duration)`; every skipped interval is
occupied or too small; the assigned start is `max(chosen.start, earliest)`;
and the failure of `includes` is exactly
`max(start, earliest) + duration - 1 > end`. -/
theorem place_first_fit :
    ∀ (tl : List Interval) (je d : Int) (op : Nat × Nat) (tl' : List Interval) (s : Int),
      place_tl tl je d op = some (tl', s) →
      (∃ idx iv, tl[idx]? = some iv ∧
        interval_at tl je ≤ idx ∧
        iv.occupied = false ∧ iv.includes je d = true ∧
        (∀ i iv', interval_at tl je ≤ i → i < idx → tl[i]? = some iv' →
          iv'.occupied = true ∨ iv'.includes je d = false) ∧
        s = max iv.start je ∧ tl' = schedule_task tl idx op d s) ∧
      (∀ (x : Interval) (lo dd : Int),
        x.includes lo dd = false ↔ x.stop < max x.start lo + dd - 1) := by
  intro tl je d op tl' s h
  obtain ⟨idx, iv, hidx, hocc, hinc, hs, htl'eq, hge, hbefore⟩ := place_tl_some h
  refine ⟨⟨idx, iv, hidx, hge, hocc, hinc, hbefore, hs, htl'eq⟩, ?_⟩
  intro x lo dd
  simp [Interval.includes]
  omega

theorem place_first_fit_witness :
    ∃ idx iv, ([(⟨0, 2, some (0, 0)⟩ : Interval), ⟨3, infinity, none⟩])[idx]? = some iv ∧
      interval_at [(⟨0, 2, some (0, 0)⟩ : Interval), ⟨3, infinity, none⟩] 0 ≤ idx ∧
      iv.occupied = false ∧ iv.includes 0 2 = true ∧
      (∀ i iv', interval_at [(⟨0, 2, some (0, 0)⟩ : Interval), ⟨3, infinity, none⟩] 0 ≤ i →
        i < idx → ([(⟨0, 2, some (0, 0)⟩ : Interval), ⟨3, infinity, none⟩])[i]? = some iv' →
        iv'.occupied = true ∨ iv'.includes 0 2 = false) ∧
      (3 : Int) = max iv.start 0 ∧
      [(⟨0, 2, some (0, 0)⟩ : Interval), ⟨3, 4, some (1, 0)⟩, ⟨5, infinity, none⟩] =
        schedule_task [(⟨0, 2, some (0, 0)⟩ : Interval), ⟨3, infinity, none⟩] idx (1, 0) 2 3 :=
  (place_first_fit [(⟨0, 2, some (0, 0)⟩ : Interval), ⟨3, infinity, none⟩] 0 2 (1, 0)
    [(⟨0, 2, some (0, 0)⟩ : Interval), ⟨3, 4, some (1, 0)⟩, ⟨5, infinity, none⟩] 3
    (by decide)).1

/-- C5: a placement into the chosen interval `[a, b]` mutates it in place
into the occupied block `[s, s + dur - 1]`, inserts a free `[a, s - 1]`
before exactly when `s > a`, inserts a free `[s + dur, b]` after exactly
when `s + dur - 1 < b`, and deletes nothing: the rest of the timeline is
kept and the length grows by exactly the number of inserted pieces. -/
theorem schedule_task_split_insert :
    ∀ (tl : List Interval) (idx : Nat) (op : Nat × Nat) (dur s : Int) (iv : Interval),
      tl[idx]? = some iv →
      schedule_task tl idx op dur s =
        tl.take idx ++
          ((if iv.start < s then [Interval.empty iv.start (s - 1)] else []) ++
            (⟨s, s + dur - 1, some op⟩ : Interval) ::
            (if s + dur - 1 < iv.stop then [Interval.empty (s + dur) iv.stop] else [])) ++
          tl.drop (idx + 1) ∧
      (schedule_task tl idx op dur s).length =
        tl.length + (if iv.start < s then 1 else 0) +
          (if s + dur - 1 < iv.stop then 1 else 0) := by
  intro tl idx op dur s iv h
  have hlen : idx < tl.length := (List.getElem?_eq_some.mp h).1
  refine ⟨schedule_task_eq h, ?_⟩
  rw [schedule_task_eq h]
  simp only [List.length_append, List.length_take, List.length_drop, List.length_cons]
  split_ifs <;> simp <;> omega

theorem schedule_task_split_insert_witness :
    schedule_task [Interval.empty 0 infinity] 0 (0, 0) 2 1 =
      ([Interval.empty 0 infinity].take 0) ++
        ((if (Interval.empty 0 infinity).start < 1 then [Interval.empty 0 0] else []) ++
          (⟨1, 2, some (0, 0)⟩ : Interval) ::
          (if (1 : Int) + 2 - 1 < (Interval.empty 0 infinity).stop then
            [Interval.empty 3 infinity] else [])) ++
        ([Interval.empty 0 infinity].drop 1) ∧
    (schedule_task [Interval.empty 0 infinity] 0 (0, 0) 2 1).length =
      [Interval.empty 0 infinity].length + (if (Interval.empty 0 infinity).start < 1 then 1 else 0) +
        (if (1 : Int) + 2 - 1 < (Interval.empty 0 infinity).stop then 1 else 0) := by
  have h := schedule_task_split_insert [Interval.empty 0 infinity] 0 (0, 0) 2 1
    (Interval.empty 0 infinity) (by decide)
  simpa using h

/-- C7 (amended): under the timeline invariant, `interval_at` always finds a
containing interval for a time in `[0, infinity]`, and the forward scan of
the placement succeeds — reaching at the latest the final free unbounded
interval — for every operation of positive duration whose capacity test at
that final interval stays within the `infinity` sentinel (the embedding of
"finite duration" under the 32-bit time type). -/
theorem interval_at_total_and_scan_succeeds :
    ∀ (tl : List Interval) (je d : Int) (op : Nat × Nat),
      TLInv tl → 0 ≤ je → je ≤ infinity → 1 ≤ d →
      (∀ iv ∈ tl.getLast?, max iv.start je + d - 1 ≤ infinity) →
      interval_at tl je < tl.length ∧ (place_tl tl je d op).isSome := by
  intro tl je d op hinv h0 hi hd hcap
  have hcov := covers_of_TLWF hinv.toTLWF h0 hi
  have hfind : interval_at tl je < tl.length := interval_at_lt_length hcov
  refine ⟨hfind, ?_⟩
  have hne := hinv.ne
  have hsome : tl.getLast?.isSome := List.getLast?_isSome.mpr hne
  obtain ⟨last, hlast⟩ := Option.isSome_iff_exists.mp hsome
  have hlastg : tl[tl.length - 1]? = some last := by
    rw [← List.getLast?_eq_getElem?]
    exact hlast
  have hfree : last.task = none := hinv.free_tail last (Option.mem_def.mpr hlast)
  have htop : last.stop = infinity := hinv.top last (Option.mem_def.mpr hlast)
  have hocc : last.occupied = false := by simp [Interval.occupied, hfree]
  have hinc : last.includes je d = true := by
    simp only [Interval.includes, htop, decide_eq_true_eq]
    exact hcap last (Option.mem_def.mpr hlast)
  have hscan := @scan_isSome tl (interval_at tl je) je d (tl.length - 1) last
    (by omega) hlastg hocc hinc
  obtain ⟨idx, hidx⟩ := Option.isSome_iff_exists.mp hscan
  obtain ⟨-, iv, hiv, -, -, -⟩ := scan_some hidx
  simp [place_tl, hidx, hiv]

theorem interval_at_total_and_scan_succeeds_witness :
    interval_at [Interval.empty 0 infinity] 0 < [Interval.empty 0 infinity].length ∧
      (place_tl [Interval.empty 0 infinity] 0 1 (0, 0)).isSome :=
  interval_at_total_and_scan_succeeds [Interval.empty 0 infinity] 0 1 (0, 0)
    TLInv_single (by decide) (by decide) (by decide) (by decide)

/-- C7 counterexample: on a freshly constructed (invariant-satisfying)
timeline, the scan for an operation of positive, sub-sentinel ("finite")
duration `2147483642` at cursor `10` runs past the end of the interval list:
the final free unbounded interval fails `includes(10, 2147483642)` because
`10 + 2147483642 - 1` exceeds the `infinity` sentinel, so the claim that the
scan always succeeds for positive finite durations is false. -/
theorem interval_at_total_and_scan_succeeds_counterexample :
    TLInv [Interval.empty 0 infinity] ∧ (1 : Int) ≤ 2147483642 ∧
    (2147483642 : Int) < infinity ∧
    place_tl [Interval.empty 0 infinity] 10 2147483642 (0, 0) = none :=
  ⟨TLInv_single, by decide, by decide, by decide⟩

theorem string_foldl_append :
    ∀ (l : List String) (acc : String),
      l.foldl (fun r s => r ++ s) acc = acc ++ String.join l := by
  intro l
  induction l with
  | nil =>
    intro acc
    show acc = acc ++ String.join []
    simp [String.join]
  | cons x xs ih =>
    intro acc
    show xs.foldl _ (acc ++ x) = acc ++ String.join (x :: xs)
    rw [ih]
    have h2 : String.join (x :: xs) = x ++ String.join xs := by
      show xs.foldl (fun r s => r ++ s) (("" : String) ++ x) = _
      rw [ih]
      simp
    rw [h2, String.append_assoc]

theorem summary_eq (st : Sched) :
    st.summary = toString st.longest_timeline ++ "\n" ++
      String.join (st.jobs.map (fun job => job_line job ++ "\n")) := by
  unfold Sched.summary
  have h : ∀ (jobs : List Job) (acc : String),
      jobs.foldl (fun acc job => acc ++ job_line job ++ "\n") acc =
        acc ++ String.join (jobs.map (fun job => job_line job ++ "\n")) := by
    intro jobs
    induction jobs with
    | nil =>
      intro acc
      simp [String.join]
    | cons x xs ih =>
      intro acc
      simp only [List.foldl_cons, List.map_cons]
      rw [ih]
      have h2 : String.join ((job_line x ++ "\n") :: xs.map (fun job => job_line job ++ "\n")) =
          (job_line x ++ "\n") ++ String.join (xs.map (fun job => job_line job ++ "\n")) := by
        show (xs.map _).foldl (fun r s => r ++ s) (("" : String) ++ (job_line x ++ "\n")) = _
        rw [string_foldl_append]
        simp
      rw [h2]
      simp [String.append_assoc]
  rw [h]

theorem foldl_max_spec :
    ∀ (xs : List (List Interval)) (x : List Interval),
      (xs.foldl (fun acc y => if timeline_lt acc y then y else acc) x) ∈ x :: xs ∧
      timeline_length x ≤
        timeline_length (xs.foldl (fun acc y => if timeline_lt acc y then y else acc) x) ∧
      ∀ y ∈ xs, timeline_length y ≤
        timeline_length (xs.foldl (fun acc y => if timeline_lt acc y then y else acc) x) := by
  intro xs
  induction xs with
  | nil =>
    intro x
    simp
  | cons y ys ih =>
    intro x
    simp only [List.foldl_cons]
    obtain ⟨hmem, hx, hall⟩ := ih (if timeline_lt x y then y else x)
    refine ⟨?_, ?_, ?_⟩
    · rcases List.mem_cons.mp hmem with h | h
      · rw [h]
        by_cases hxy : timeline_lt x y = true <;> simp [hxy]
      · exact List.mem_cons_of_mem x (List.mem_cons_of_mem y h)
    · refine le_trans ?_ hx
      by_cases hxy : timeline_lt x y = true
      · simp only [if_pos hxy]
        simp [timeline_lt] at hxy
        omega
      · simp [hxy]
    · intro z hz
      rcases List.mem_cons.mp hz with rfl | hz2
      · refine le_trans ?_ hx
        by_cases hxy : timeline_lt x z = true
        · simp [hxy]
        · simp only [if_neg hxy]
          simp [timeline_lt] at hxy
          omega
      · exact hall z hz2

/-- C8: `timeline::length()` is `end + 1` of the last interval when it is
occupied and the last interval's `start` otherwise; and `operator<`
(comparison by `length()`) orders timelines totally: it is transitive,
irreflexive, and any two timelines are comparable or have equal lengths. -/
theorem timeline_length_spec_and_total_order :
    (∀ (tl : List Interval) (iv : Interval), tl.getLast? = some iv →
      timeline_length tl = if iv.occupied then iv.stop + 1 else iv.start) ∧
    (∀ a b c : List Interval, timeline_lt a b = true → timeline_lt b c = true →
      timeline_lt a c = true) ∧
    (∀ a : List Interval, timeline_lt a a = false) ∧
    (∀ a b : List Interval, timeline_lt a b = true ∨ timeline_lt b a = true ∨
      timeline_length a = timeline_length b) := by
  refine ⟨?_, ?_, ?_, ?_⟩
  · intro tl iv h
    unfold timeline_length
    rw [h]
  · intro a b c hab hbc
    simp [timeline_lt] at hab hbc ⊢
    omega
  · intro a
    simp [timeline_lt]
  · intro a b
    by_cases h1 : timeline_lt a b = true
    · exact Or.inl h1
    · by_cases h2 : timeline_lt b a = true
      · exact Or.inr (Or.inl h2)
      · refine Or.inr (Or.inr ?_)
        simp [timeline_lt] at h1 h2
        omega

theorem timeline_length_spec_and_total_order_witness :
    timeline_length [(⟨0, 4, some (0, 0)⟩ : Interval)] = 5 := by
  have h := timeline_length_spec_and_total_order.1 [(⟨0, 4, some (0, 0)⟩ : Interval)]
    ⟨0, 4, some (0, 0)⟩ (by rfl)
  simpa [Interval.occupied] using h

/-- C9: the reported makespan (`longest_timeline`) is the length of one of
the machines' timelines and bounds every machine's timeline length (i.e. it
is their maximum), and `summary` is the makespan line followed by one line
per job in the job list's order, each line the job's start times in sequence
order, space-separated. -/
theorem makespan_and_summary :
    ∀ st : Sched, st.table ≠ [] →
      ((∃ tl ∈ st.table, st.longest_timeline = timeline_length tl) ∧
        (∀ tl ∈ st.table, timeline_length tl ≤ st.longest_timeline)) ∧
      st.summary = toString st.longest_timeline ++ "\n" ++
        String.join (st.jobs.map (fun job => job_line job ++ "\n")) := by
  intro st hne
  refine ⟨?_, summary_eq st⟩
  obtain ⟨x, xs, hx⟩ := List.exists_cons_of_ne_nil hne
  have hlt : st.longest_timeline =
      timeline_length (xs.foldl (fun acc y => if timeline_lt acc y then y else acc) x) := by
    unfold Sched.longest_timeline max_element
    rw [hx]
  obtain ⟨hmem, hfirst, hall⟩ := foldl_max_spec xs x
  constructor
  · exact ⟨_, by rw [hx]; exact hmem, hlt⟩
  · intro tl htl
    rw [hx] at htl
    rw [hlt]
    rcases List.mem_cons.mp htl with rfl | h2
    · exact hfirst
    · exact hall tl h2

theorem makespan_and_summary_witness :
    (((∃ tl ∈ (Sched.mk [[Interval.empty 0 infinity]] []).table,
        (Sched.mk [[Interval.empty 0 infinity]] []).longest_timeline = timeline_length tl) ∧
      (∀ tl ∈ (Sched.mk [[Interval.empty 0 infinity]] []).table,
        timeline_length tl ≤ (Sched.mk [[Interval.empty 0 infinity]] []).longest_timeline)) ∧
      (Sched.mk [[Interval.empty 0 infinity]] []).summary =
        toString (Sched.mk [[Interval.empty 0 infinity]] []).longest_timeline ++ "\n" ++
          String.join ((Sched.mk [[Interval.empty 0 infinity]] []).jobs.map
            (fun job => job_line job ++ "\n"))) :=
  makespan_and_summary (Sched.mk [[Interval.empty 0 infinity]] []) (by simp)

theorem mem_insert_by {α : Type} (lt : α → α → Bool) (x : α) :
    ∀ (l : List α) (y : α), y ∈ insert_by lt x l → y = x ∨ y ∈ l := by
  intro l
  induction l with
  | nil =>
    intro y hy
    simp [insert_by] at hy
    exact Or.inl hy
  | cons z zs ih =>
    intro y hy
    rw [insert_by] at hy
    by_cases hc : lt x z = true
    · rw [if_pos hc] at hy
      simp only [List.mem_cons] at hy ⊢
      tauto
    · rw [if_neg hc] at hy
      simp only [List.mem_cons] at hy
      rcases hy with rfl | hy2
      · exact Or.inr (by simp)
      · rcases ih y hy2 with h | h
        · exact Or.inl h
        · exact Or.inr (by simp [h])

theorem pairwise_insert_by_id (x : Job) :
    ∀ l : List Job, List.Pairwise (fun a b : Job => a.id ≤ b.id) l →
      List.Pairwise (fun a b : Job => a.id ≤ b.id)
        (insert_by (fun a b => decide (a.id < b.id)) x l) := by
  intro l
  induction l with
  | nil =>
    intro h
    simp [insert_by]
  | cons z zs ih =>
    intro h
    rw [insert_by]
    obtain ⟨hz1, hzs⟩ := List.pairwise_cons.mp h
    by_cases hc : (decide (x.id < z.id)) = true
    · rw [if_pos hc]
      simp only [decide_eq_true_eq] at hc
      refine List.pairwise_cons.mpr ⟨?_, h⟩
      intro b hb
      rcases List.mem_cons.mp hb with rfl | hb2
      · omega
      · have hzb := hz1 b hb2
        omega
    · rw [if_neg hc]
      simp only [decide_eq_true_eq] at hc
      refine List.pairwise_cons.mpr ⟨?_, ih hzs⟩
      intro b hb
      rcases mem_insert_by (fun a b => decide (a.id < b.id)) x zs b hb with rfl | hb2
      · omega
      · exact hz1 b hb2

theorem sorted_sort_by_id :
    ∀ l : List Job, List.Pairwise (fun a b : Job => a.id ≤ b.id)
      (sort_by (fun a b => decide (a.id < b.id)) l) := by
  intro l
  induction l with
  | nil => simp [sort_by]
  | cons x xs ih => exact pairwise_insert_by_id x _ ih

/-- C10: after `schedule_jobs` returns, the job list is sorted in ascending
job-id order (the final sort on line 143), regardless of the heuristic's
dispatch order; consequently `summary`, which walks the job list in order,
emits the per-job start-time lines in ascending job-id order. -/
theorem jobs_sorted_after_schedule_jobs :
    ∀ (h : Heuristic) (st st' : Sched), Sched.schedule_jobs h st = some st' →
      List.Pairwise (fun a b : Job => a.id ≤ b.id) st'.jobs ∧
      st'.summary = toString st'.longest_timeline ++ "\n" ++
        String.join (st'.jobs.map (fun job => job_line job ++ "\n")) := by
  intro h st st' hsj
  refine ⟨?_, summary_eq st'⟩
  unfold Sched.schedule_jobs at hsj
  split at hsj
  · exact absurd hsj (by simp)
  next j0 rest hjobs =>
    split at hsj
    · exact absurd hsj (by simp)
    next st1 hstages =>
      obtain rfl := Option.some.inj hsj
      exact sorted_sort_by_id st1.jobs

theorem jobs_sorted_after_schedule_jobs_witness :
    List.Pairwise (fun a b : Job => a.id ≤ b.id)
      (Sched.mk
        [[(⟨0, 2, some (0, 0)⟩ : Interval), ⟨3, 4, some (1, 0)⟩, ⟨5, infinity, none⟩],
         [(⟨0, 2, none⟩ : Interval), ⟨3, 4, some (0, 1)⟩, ⟨5, 8, some (1, 1)⟩,
          ⟨9, infinity, none⟩]]
        [⟨0, [⟨0, 3, some 0⟩, ⟨1, 2, some 3⟩], 5⟩,
         ⟨1, [⟨0, 2, some 3⟩, ⟨1, 4, some 5⟩], 9⟩]).jobs :=
  (jobs_sorted_after_schedule_jobs longest_first
    (Sched.init 2 [⟨0, [⟨0, 3, none⟩, ⟨1, 2, none⟩], 0⟩,
                   ⟨1, [⟨0, 2, none⟩, ⟨1, 4, none⟩], 0⟩])
    (Sched.mk
      [[(⟨0, 2, some (0, 0)⟩ : Interval), ⟨3, 4, some (1, 0)⟩, ⟨5, infinity, none⟩],
       [(⟨0, 2, none⟩ : Interval), ⟨3, 4, some (0, 1)⟩, ⟨5, 8, some (1, 1)⟩,
        ⟨9, infinity, none⟩]]
      [⟨0, [⟨0, 3, some 0⟩, ⟨1, 2, some 3⟩], 5⟩,
       ⟨1, [⟨0, 2, some 3⟩, ⟨1, 4, some 5⟩], 9⟩])
    (by decide)).1

/-- C6: on the concrete instance with 2 jobs and 2 machines under the
longest-operation-at-this-stage-first heuristic — Job0 = [(m0, 3), (m1, 2)],
Job1 = [(m0, 2), (m1, 4)] — the dispatch assigns Job0 op0 start 0,
Job0 op1 start 3, Job1 op0 start 3, Job1 op1 start 5, and the reported
makespan (`longest_timeline`) is 9. -/
theorem scenario_two_jobs :
    (Sched.schedule_jobs longest_first
      (Sched.init 2 [⟨0, [⟨0, 3, none⟩, ⟨1, 2, none⟩], 0⟩,
                     ⟨1, [⟨0, 2, none⟩, ⟨1, 4, none⟩], 0⟩])).map
      (fun st => ((st.jobs.map fun j => j.sequence.map Task.scheduled_time),
        st.longest_timeline)) =
    some ([[some 0, some 3], [some 3, some 5]], 9) := by
  decide

end js
